import Mathlib

/-!
Verification of the real-time classroom engine of `learnify-fe`.

The development shallowly embeds the TypeScript functions of the repository
(message reconciliation, token streaming, speech chunking, viseme timeline
bookkeeping, SSE payload handling and the chat-socket handlers) as executable
Lean definitions over `List Char` strings, and proves or refutes the frozen
specification claims about them.

Conventions:
* a JS string is modelled as `List Char` (named `Str` below); the ASCII
  whitespace characters stand in for the JS `\s` class;
* JS `Map` (insertion ordered, in-place update) is an association list with
  in-place update;
* `Array.prototype.sort` with the comparator `(a, b) => (a.ts ?? 0) - (b.ts ?? 0)`
  is a stable ascending sort by timestamp (stability is mandated by the
  ECMAScript specification), realised here by a stable insertion sort;
* asynchronous interleavings (cancellation during an `await`) are modelled by
  an explicit schedule parameter saying at which suspension point the
  cancelling handler runs.
-/

namespace Learnify

/-- A JS string, modelled as a list of characters. -/
abbrev Str := List Char

/-- ASCII fragment of the JS regex class `\s` (space, tab, LF, CR, VT, FF). -/
def isWs (c : Char) : Bool :=
  c = ' ' || c = '\t' || c = '\n' || c = '\r' || c = '\x0b' || c = '\x0c'

/-- The characters matched by `[\r\n]` in `normalizeText`. -/
def isCrLf (c : Char) : Bool := c = '\r' || c = '\n'

/-- The punctuation class `[,\.!?:;]` of `normalizeText`. -/
def isPunct (c : Char) : Bool :=
  c = ',' || c = '.' || c = '!' || c = '?' || c = ':' || c = ';'

/-- Scanner for `s.replace(/X+/g, r)`: `inRun` records whether the previous
character belonged to a run of the class `p`. -/
def replaceRunsAux (p : Char → Bool) (r : Char) (inRun : Bool) : Str → Str
  | [] => []
  | c :: cs =>
    if p c then
      if inRun then replaceRunsAux p r true cs
      else r :: replaceRunsAux p r true cs
    else c :: replaceRunsAux p r false cs

/-- `s.replace(/X+/g, r)` for a character class `X`: every maximal nonempty
run of characters satisfying `p` is replaced by the single character `r`. -/
def replaceRuns (p : Char → Bool) (r : Char) (s : Str) : Str :=
  replaceRunsAux p r false s

/-- JS `String.prototype.trim` (ASCII whitespace fragment). -/
def wsTrim (s : Str) : Str :=
  ((s.dropWhile isWs).reverse.dropWhile isWs).reverse

/-- Scanner for `t.replace(/\s+([,\.!?:;])/g, '$1')`: `pend` is the
whitespace run read so far, dropped if a punctuation character follows it. -/
def stripWsPunctAux (pend : Str) : Str → Str
  | [] => pend
  | c :: cs =>
    if isWs c then stripWsPunctAux (pend ++ [c]) cs
    else if isPunct c && pend ≠ [] then c :: stripWsPunctAux [] cs
    else pend ++ c :: stripWsPunctAux [] cs

/-- `t.replace(/\s+([,\.!?:;])/g, '$1')`: a whitespace run directly followed
by a punctuation character is deleted; other whitespace is kept. -/
def stripWsPunct (s : Str) : Str :=
  stripWsPunctAux [] s

/-- `normalizeText` from `ClassRoom.tsx`: collapse `[\r\n]+` to a space,
collapse `\s+` to a space, trim, then drop whitespace before punctuation. -/
def normalizeText (s : Str) : Str :=
  if s = [] then []
  else stripWsPunct (wsTrim (replaceRuns isWs ' ' (replaceRuns isCrLf ' ' s)))

/-- The `Message` record of `ClassRoom.tsx` (`id: number | string` is kept in
its string form, which is what the merge code inspects via `String(id)`). -/
structure Msg where
  id : Str
  role : Str
  text : Str
  ts : Option Int
deriving DecidableEq, Inhabited

/-- `msg.ts ?? 0`. -/
def tsv (m : Msg) : Int := m.ts.getD 0

/-- The reserved temporary-id prefix `"temp:"` of `ClassRoom.tsx`. -/
def tempPrefix : Str := ['t', 'e', 'm', 'p', ':']

/-- `String(msg.id).startsWith('temp:')`. -/
def isTempMsg (m : Msg) : Bool := tempPrefix.isPrefixOf m.id

/-- `keyFor` from `mergeMessagesById`: the normalized text, or `"id:" + id`
when the normalized text is empty. -/
def keyFor (m : Msg) : Str :=
  let n := normalizeText m.text
  if n = [] then ['i', 'd', ':'] ++ m.id else n

/-- The priority rule of `setWithPriority` applied to an incumbent map entry
`prev` and a candidate `cur` with the same key: a confirmed message replaces a
temporary one, a temporary one never replaces a confirmed one, and between
messages of equal temp-ness the candidate wins iff its `ts ?? 0` is `≥`. -/
def resolve (prev cur : Msg) : Msg :=
  if isTempMsg prev && !isTempMsg cur then cur
  else if !isTempMsg prev && isTempMsg cur then prev
  else if tsv prev ≤ tsv cur then cur else prev

/-- The JS `Map` keyed by `keyFor`, as an insertion-ordered association list. -/
abbrev MsgMap := List (Str × Msg)

/-- `setWithPriority` from `mergeMessagesById`: update in place when the key
is present (applying `resolve`), append otherwise — exactly the behaviour of
`map.set` on a JS `Map`. -/
def setWithPriority (m : MsgMap) (msg : Msg) : MsgMap :=
  match m with
  | [] => [(keyFor msg, msg)]
  | (k, v) :: rest =>
    if k = keyFor msg then (k, resolve v msg) :: rest
    else (k, v) :: setWithPriority rest msg

/-- `map.get k`. -/
def lookupKey (k : Str) : MsgMap → Option Msg
  | [] => none
  | (k', v) :: rest => if k' = k then some v else lookupKey k rest

/-- `Array.from(map.values())` (insertion order). -/
def valuesOf (m : MsgMap) : List Msg := m.map Prod.snd

/-- The ordering used by `arr.sort((a, b) => (a.ts ?? 0) - (b.ts ?? 0))`. -/
def tsLe (a b : Msg) : Prop := tsv a ≤ tsv b

instance : DecidableRel tsLe := fun a b => inferInstanceAs (Decidable (tsv a ≤ tsv b))

instance : IsTotal Msg tsLe := ⟨fun a b => le_total (tsv a) (tsv b)⟩

instance : IsTrans Msg tsLe := ⟨fun _ _ _ hab hbc => le_trans hab hbc⟩

/-- The stable ascending sort by `ts ?? 0` performed by
`arr.sort((a, b) => (a.ts ?? 0) - (b.ts ?? 0))` (JS `sort` is stable, so it
computes exactly the stable insertion sort). -/
def sortTs (l : List Msg) : List Msg := List.insertionSort tsLe l

/-- `mergeMessagesById(existing, incoming)` from `ClassRoom.tsx`. -/
def mergeMessagesById (existing incoming : List Msg) : List Msg :=
  sortTs (valuesOf (incoming.foldl setWithPriority (existing.foldl setWithPriority [])))

/-- Confirmed messages rank above temporary ones (proof infrastructure). -/
def rankOf (m : Msg) : Nat := if isTempMsg m then 0 else 1

/-- The per-key view of one `setWithPriority` step (proof infrastructure). -/
def tourneyStep (k : Str) (acc : Option Msg) (m : Msg) : Option Msg :=
  if keyFor m = k then
    some (match acc with | none => m | some p => resolve p m)
  else acc

/-- The key column of the map (proof infrastructure). -/
def keysOf (m : MsgMap) : List Str := m.map Prod.fst

/-- Every entry of the map is stored under the key of its value
(proof infrastructure). -/
def KeysOk (m : MsgMap) : Prop := ∀ p ∈ m, p.1 = keyFor p.2

/-- The map whose entries are the given values keyed by their own keys
(proof infrastructure). -/
def fromKeyed (vals : List Msg) : MsgMap := vals.map (fun v => (keyFor v, v))

/-- A string with no whitespace character (an unbreakable word). -/
def NoWsStr (s : Str) : Prop := ∀ c ∈ s, isWs c = false

/-- A string consisting of whitespace only. -/
def AllWsStr (s : Str) : Prop := ∀ c ∈ s, isWs c = true

/-! ### Token tokenizer (`tokenize` in `ClassRoom.tsx`) -/

/-- Scanner for the global regex match `text.match(/\S+\s*/g)`.  `cur` is the
reversed partially-built token; `inTail` records that the scanner is inside
the trailing `\s*` part of the current token.  Whitespace at a position where
no token is open cannot start a match and is skipped, exactly as the regex
engine skips positions that cannot match. -/
def tokAux : Str → Str → Bool → List Str
  | [], cur, _ => if cur = [] then [] else [cur.reverse]
  | c :: cs, cur, inTail =>
    if isWs c then
      if cur = [] then tokAux cs [] false
      else tokAux cs (c :: cur) true
    else
      if inTail then cur.reverse :: tokAux cs [c] false
      else tokAux cs (c :: cur) false

/-- `text.match(/\S+\s*/g)`, as a list of matches (empty list for `null`). -/
def jsMatchTokens (text : Str) : List Str := tokAux text [] false

/-- `tokenize` from `ClassRoom.tsx`:
`if (!text) return []; return text.match(/\S+\s*/g) || [text];`. -/
def tokenize (text : Str) : List Str :=
  if text = [] then []
  else match jsMatchTokens text with
    | [] => [text]
    | ts => ts

/-! ### Streaming queue processor (`processStreamingQueue` / `handleStop`) -/

/-- `appendTokenToStreamingMessage`: the first unit creates the live
streaming message (with a fresh `temp:` id); later units are appended to its
text.  Only the live message's text is tracked here. -/
def appendTokenToStreamingMessage (live : Option Str) (tok : Str) : Option Str :=
  match live with
  | none => some tok
  | some t => some (t ++ tok)

/-- The drain loop of `processStreamingQueue`.  The loop pops one unit,
appends it to the live message and then awaits an interruptible delay; the
schedule `sched` says whether `handleStop` runs during the await that follows
the `n`-th appended unit.  `handleStop` sets the cancellation flag and clears
the queue (`streamingQueueRef.current = []`), after which the `while` guard
`queue.length > 0 && !cancelled` fails and the loop exits.  The result is
(live-message text, remaining queue, cancellation flag). -/
def processStreamingQueue (sched : Nat → Bool) : List Str → Option Str → Nat → Option Str × List Str × Bool
  | [], live, _ => (live, [], false)
  | t :: rest, live, n =>
    if t = [] then processStreamingQueue sched rest live n
    else
      let live2 := appendTokenToStreamingMessage live t
      if sched (n + 1) then (live2, [], true)
      else processStreamingQueue sched rest live2 (n + 1)

/-! ### Lesson playback (`handleStartLesson` / `handleStop` in `ClassRoom.tsx`) -/

/-- A lesson section as consumed by `handleStartLesson` (`urlPdf` is `''`
when the section has no slide). -/
structure LessonSection where
  sid : Str
  order : Int
  content : Str
  urlPdf : Str
deriving DecidableEq

/-- Stable insertion by the comparator `Number(a?.order ?? 0) - Number(b?.order ?? 0)`. -/
def insertOrd (s : LessonSection) : List LessonSection → List LessonSection
  | [] => [s]
  | x :: xs => if s.order ≤ x.order then s :: x :: xs else x :: insertOrd s xs

/-- `sections.sort((a, b) => Number(a?.order ?? 0) - Number(b?.order ?? 0))`
(stable ascending). -/
def sortSections : List LessonSection → List LessonSection
  | [] => []
  | x :: xs => insertOrd x (sortSections xs)

/-- The markdown slide text built by `handleStartLesson`:
`![slide](previewUrl)\n\n` when a preview is available, `[📄 Slide](url)\n\n`
when only the raw url is, `''` when the section has no url.  The Cloudinary
url rewriting of `getPreviewImageUrl` is abstracted as the parameter
`preview` (it never turns a nonempty url into an empty one, and its output is
irrelevant to the claims). -/
def imageMdOf (preview : Str → Str) (url : Str) : Str :=
  if url ≠ [] ∧ preview url ≠ [] then "![slide](".data ++ preview url ++ ")\n\n".data
  else if url ≠ [] then "[📄 Slide](".data ++ url ++ ")\n\n".data
  else []

/-- The message posted for a section, `{ id: section:<id>, role: 'assistant',
text: imageMd, ts: Date.now() }`; the wall clock is the parameter `now`. -/
def sectionMsg (preview : Str → Str) (now : Int) (sec : LessonSection) : Msg :=
  { id := "section:".data ++ sec.sid
    role := "assistant".data
    text := imageMdOf preview sec.urlPdf
    ts := some now }

/-- The mutable state touched by `handleStartLesson` and `handleStop`:
the transcript, the streaming controller flag and queue, the status text and
the list of narrations handed to `speak` (in order). -/
structure LessonSt where
  messages : List Msg
  cancelled : Bool
  streamingQueue : List Str
  statusText : Str
  isStreaming : Bool
  spoken : List Str
deriving DecidableEq

/-- `handleStop` from `ClassRoom.tsx`: set the cancellation flag, clear the
streaming state and queue, set the status text (`'Đã dừng'`).  It does not
touch the transcript, the speech engine or the lesson loop. -/
def handleStop (s : LessonSt) : LessonSt :=
  { s with cancelled := true
           isStreaming := false
           statusText := "Đã dừng".data
           streamingQueue := [] }

/-- One iteration of the `for (const sec of sections)` loop of
`handleStartLesson`: post the section's slide message, narrate
`normalizeText(content)` when nonempty, and pause.  `stopDuring = some i`
means the user presses Stop while section `i`'s narration is in progress;
the loop body itself never reads `cancelled`, mirroring the source. -/
def lessonStep (preview : Str → Str) (clock : Nat → Int) (stopDuring : Option Nat)
    (i : Nat) (sec : LessonSection) (s : LessonSt) : LessonSt :=
  let s1 := { s with messages := s.messages ++ [sectionMsg preview (clock i) sec] }
  let s2 :=
    if normalizeText sec.content ≠ [] then
      { s1 with spoken := s1.spoken ++ [normalizeText sec.content] }
    else s1
  if stopDuring = some i then handleStop s2 else s2

/-- The sequential section loop of `handleStartLesson`, starting at index `i`. -/
def runLessonAux (preview : Str → Str) (clock : Nat → Int) (stopDuring : Option Nat) :
    Nat → List LessonSection → LessonSt → LessonSt
  | _, [], s => s
  | i, sec :: rest, s =>
    runLessonAux preview clock stopDuring (i + 1) rest
      (lessonStep preview clock stopDuring i sec s)

/-- `handleStartLesson` after the sections were fetched: sort by `order`,
then iterate the sections sequentially. -/
def runLesson (preview : Str → Str) (clock : Nat → Int) (stopDuring : Option Nat)
    (secs : List LessonSection) (s : LessonSt) : LessonSt :=
  runLessonAux preview clock stopDuring 0 (sortSections secs) s

/-- A transcript message is a slide reference iff its text was built by the
slide-markdown template of `handleStartLesson`. -/
def isSlideRefMsg (m : Msg) : Bool :=
  ("![slide](".data).isPrefixOf m.text || ("[📄 Slide](".data).isPrefixOf m.text

/-! ### Speech chunker (`splitIntoChunks` in the `useTeacherSpeech` hook) -/

/-- The sentence-ending class `[.!?\n]` of the chunker. -/
def isTermChar (c : Char) : Bool := c = '.' || c = '!' || c = '?' || c = '\n'

/-- Scanner for `text.match(/[^.!?\n]+[.!?\n]?/g)`: `cur` is the reversed run
of non-terminator characters read so far.  A terminator with no open run
cannot start a match and is skipped (so `"a..b"` yields `"a."` and `"b"`,
dropping the second dot, exactly like the regex). -/
def sentencesAux (cur : Str) : Str → List Str
  | [] => if cur = [] then [] else [cur.reverse]
  | c :: cs =>
    if isTermChar c then
      if cur = [] then sentencesAux [] cs
      else (cur.reverse ++ [c]) :: sentencesAux [] cs
    else sentencesAux (c :: cur) cs

/-- `text.match(/[^.!?\n]+[.!?\n]?/g) || [text]`. -/
def sentencesOf (text : Str) : List Str :=
  match sentencesAux [] text with
  | [] => [text]
  | ss => ss

/-- Scanner for `s.split(/(\s+)/)`: pieces and whitespace separators
alternate, with (possibly empty) non-separator pieces first and last. -/
def splitWsAux (cur : Str) (curWs : Bool) : Str → List Str
  | [] => if curWs then [cur.reverse, []] else [cur.reverse]
  | c :: cs =>
    if isWs c = curWs then splitWsAux (c :: cur) curWs cs
    else cur.reverse :: splitWsAux [c] (isWs c) cs

/-- `s.split(/(\s+)/)` (split keeping the whitespace separators). -/
def jsSplitKeepWs (s : Str) : List Str := splitWsAux [] false s

/-- The inner word loop of `splitIntoChunks`:
`if ((current + w).length <= maxLen) current += w; else { if (current)
chunks.push(current); current = w }`. -/
def wordFold (maxLen : Nat) (st : List Str × Str) (w : Str) : List Str × Str :=
  if st.2.length + w.length ≤ maxLen then (st.1, st.2 ++ w)
  else if st.2 = [] then (st.1, w)
  else (st.1 ++ [st.2], w)

/-- The outer sentence loop of `splitIntoChunks`. -/
def sentenceStep (maxLen : Nat) (st : List Str × Str) (s : Str) : List Str × Str :=
  if st.2.length + s.length ≤ maxLen then (st.1, st.2 ++ s)
  else
    let chunks1 := if st.2 = [] then st.1 else st.1 ++ [st.2]
    if s.length ≤ maxLen then (chunks1, s)
    else (jsSplitKeepWs s).foldl (wordFold maxLen) (chunks1, [])

/-- `splitIntoChunks(text, maxLen)` from the `useTeacherSpeech` hook. -/
def splitIntoChunks (text : Str) (maxLen : Nat) : List Str :=
  if text = [] ∨ text.length ≤ maxLen then [text]
  else
    let st := (sentencesOf text).foldl (sentenceStep maxLen) ([], [])
    let chunks2 := if st.2 = [] then st.1 else st.1 ++ [st.2]
    (chunks2.map wsTrim).filter (· ≠ [])

/-! ### Viseme timeline accumulation (`speakChunk` / `processQueue`) -/

/-- What one chunk's playback contributes: the raw viseme events fired by the
speech engine (engine `audioOffset` units), and the measured audio duration
in seconds (`none` when `audioPlayer.duration` is unavailable or `NaN`). -/
structure ChunkPlayback where
  rawVisemes : List (ℚ × Int)
  audioDuration : Option ℚ

/-- `audioOffsetToMs`: engine ticks to milliseconds (`audioOffset / 10000`). -/
def audioOffsetToMs (x : ℚ) : ℚ := x / 10000

/-- The chunk-local viseme timeline `[audioOffsetToMs(e.audioOffset), e.visemeId]`. -/
def chunkLocalVisemes (c : ChunkPlayback) : List (ℚ × Int) :=
  c.rawVisemes.map (fun v => (audioOffsetToMs v.1, v.2))

/-- The duration added to `visemeTimeOffsetRef` when a chunk ends: the audio
duration in ms if available, else the last local viseme offset plus the
inter-chunk pause, else 0. -/
def chunkDurMs (pause : ℚ) (c : ChunkPlayback) : ℚ :=
  match c.audioDuration with
  | some d => d * 1000
  | none =>
    match (chunkLocalVisemes c).getLast? with
    | some v => v.1 + pause
    | none => 0

/-- One chunk of `processQueue`/`speakChunk`: shift this chunk's local
visemes by the running `chunkStartOffset` and append them to the
accumulator, then grow the offset by the chunk's measured duration. -/
def speakChunkStep (pause : ℚ) (acc : List (ℚ × Int) × ℚ) (c : ChunkPlayback) :
    List (ℚ × Int) × ℚ :=
  (acc.1 ++ (chunkLocalVisemes c).map (fun v => (v.1 + acc.2, v.2)),
   acc.2 + chunkDurMs pause c)

/-- The cumulative viseme timeline of one top-level `speak` call: the
accumulator and offset are reset at the start and every chunk is folded in
order (the worker plays chunks strictly sequentially). -/
def speakAccum (pause : ℚ) (chunks : List ChunkPlayback) : List (ℚ × Int) :=
  (chunks.foldl (speakChunkStep pause) ([], 0)).1

/-! ### SSE payload handling (`parseSSEAggregated` and the dispatch loop) -/

/-- Scanner state for `aggStr.split(/\n\n+/)`: building a piece, after one
pending newline (which may open a separator), or inside a separator run. -/
inductive BlockSt
  | building
  | pending
  | separator

/-- Scanner for `aggStr.split(/\n\n+/)`: pieces between maximal runs of two
or more newlines; a lone newline belongs to its piece. -/
def blocksAux (cur : Str) : BlockSt → Str → List Str
  | .building, [] => [cur.reverse]
  | .pending, [] => [('\n' :: cur).reverse]
  | .separator, [] => [cur.reverse, []]
  | .building, c :: cs =>
    if c = '\n' then blocksAux cur .pending cs
    else blocksAux (c :: cur) .building cs
  | .pending, c :: cs =>
    if c = '\n' then blocksAux cur .separator cs
    else blocksAux (c :: '\n' :: cur) .building cs
  | .separator, c :: cs =>
    if c = '\n' then blocksAux cur .separator cs
    else cur.reverse :: blocksAux [c] .building cs

/-- `aggStr.split(/\n\n+/).map(s => s.trim()).filter(Boolean)`. -/
def blocksOf (agg : Str) : List Str :=
  ((blocksAux [] .building agg).map wsTrim).filter (· ≠ [])

/-- Split on a single character (JS `split('\n')`-style, here for `/\n/`). -/
def splitCharAux (sep : Char) (cur : Str) : Str → List Str
  | [] => [cur.reverse]
  | c :: cs =>
    if c = sep then cur.reverse :: splitCharAux sep [] cs
    else splitCharAux sep (c :: cur) cs

/-- `ev.split(/\n/)`. -/
def splitNl (s : Str) : List Str := splitCharAux '\n' [] s

/-- `l.replace(/^data:\s?/, '')`: drop a leading `data:` and at most one
whitespace character after it. -/
def stripDataPrefix (l : Str) : Str :=
  if ("data:".data).isPrefixOf l then
    match l.drop 5 with
    | c :: cs => if isWs c then cs else c :: cs
    | [] => []
  else l

/-- The per-block line processing of `parseSSEAggregated`: split into lines,
strip `data:` prefixes, trim, drop empties, re-join with newlines. -/
def processedLines (block : Str) : Str :=
  List.intercalate ['\n'] (((splitNl block).map (fun l => wsTrim (stripDataPrefix l))).filter (· ≠ []))

/-- The shape of a parsed SSE event object as far as the dispatch loop reads
it: its `type`, `response`, `agent` and `raw` fields (absent fields and
non-string fields are `none`). -/
structure JsonEvt where
  etype : Option Str
  response : Option Str
  agent : Option Str
  rawField : Option Str
deriving DecidableEq

/-- `parseSSEAggregated(aggStr)`: split into blocks, process each block's
lines, `JSON.parse` the joined lines — modelled by the oracle `jp`, the only
part of the function that is not plain string manipulation — and on parse
failure push `{ type: 'raw', raw: joined }`. -/
def parseSSEAggregated (jp : Str → Option JsonEvt) (agg : Str) : List JsonEvt :=
  if agg = [] then []
  else (blocksOf agg).map (fun b =>
    match jp (processedLines b) with
    | some o => o
    | none => { etype := some "raw".data, response := none, agent := none,
                rawField := some (processedLines b) })

/-- The filter of `messageMutation.onSuccess`:
`ev.type === 'chunk' || 'status' || 'done' || 'end' || 'raw'`. -/
def isRecognizedType (e : JsonEvt) : Bool :=
  match e.etype with
  | some t =>
    t = "chunk".data || t = "status".data || t = "done".data ||
    t = "end".data || t = "raw".data
  | none => false

/-- The window events dispatched by `messageMutation.onSuccess`. -/
inductive Dispatched
  | assistantMessage (text : Str)
  | assistantChunk (text : Str)
  | assistantStatus (agent : Option Str)
  | assistantDone
deriving DecidableEq

/-- The dispatch loop of `messageMutation.onSuccess` on the aggregated
payload `agg`: parse, keep recognized event types; when none remain the whole
payload is dispatched as one final assistant message, otherwise `chunk` and
`raw` events are dispatched as streamed chunks, `status` events as status
updates, and a final done event is dispatched after the loop. -/
def dispatchEvents (jp : Str → Option JsonEvt) (agg : Str) : List Dispatched :=
  let chunkEvents := (parseSSEAggregated jp agg).filter isRecognizedType
  if chunkEvents = [] then [.assistantMessage agg]
  else
    (chunkEvents.filterMap (fun ev =>
      if ev.etype = some "chunk".data then
        match ev.response with
        | some r => some (.assistantChunk r)
        | none => none
      else if ev.etype = some "raw".data then
        match ev.rawField with
        | some r => some (.assistantChunk r)
        | none => none
      else if ev.etype = some "status".data then some (.assistantStatus ev.agent)
      else none)) ++ [.assistantDone]

/-! ### Transport session (`useChatSocket.tsx`) -/

/-- The fixed `io(...)` options of `connectSocket`. -/
structure IoOptions where
  reconnection : Bool
  reconnectionDelay : Nat
  reconnectionAttempts : Nat
deriving DecidableEq

/-- `reconnection: true, reconnectionDelay: 1000, reconnectionAttempts: 5`. -/
def chatIoOptions : IoOptions :=
  { reconnection := true, reconnectionDelay := 1000, reconnectionAttempts := 5 }

/-- The session state observable across `connect_error` events: how many
times `connectSocket` has been started, how many token refreshes happened,
and whether any error state has been surfaced to the UI. -/
structure SessionSt where
  connectionsStarted : Nat
  tokenRefreshes : Nat
  surfacedError : Bool
deriving DecidableEq

/-- The `connect_error` handler of `connectSocket`: when the error message
mentions auth/token, fetch a new token and schedule a fresh `connectSocket`
(a whole new connection with a fresh retry budget); otherwise only log.
No branch sets any error state.  An event is (isAuthErr, refreshSucceeded). -/
def connectErrorStep (s : SessionSt) (ev : Bool × Bool) : SessionSt :=
  if ev.1 then
    if ev.2 then
      { s with tokenRefreshes := s.tokenRefreshes + 1,
               connectionsStarted := s.connectionsStarted + 1 }
    else s
  else s

/-- A sequence of consecutive `connect_error` events, folded through the
handler. -/
def runConnectErrors (events : List (Bool × Bool)) (s : SessionSt) : SessionSt :=
  events.foldl connectErrorStep s

/-! ### Inbound message handler (`socket.on("message")` in `useChatSocket.tsx`) -/

/-- The chat `Message` fields read by the inbound handler. -/
structure ChatMsg where
  id : Str
  conversationId : Str
  senderId : Str
  content : Str
deriving DecidableEq

/-- `p.id?.startsWith("temp-")` (the optimistic ids minted by `sendMessage`). -/
def isTempChat (p : ChatMsg) : Bool := ("temp-".data).isPrefixOf p.id

/-- The first step of the handler: remove optimistic temp entries matching
the incoming message by content and sender. -/
def withoutTemp (prev : List ChatMsg) (m : ChatMsg) : List ChatMsg :=
  prev.filter (fun p => !(isTempChat p && p.content = m.content && p.senderId = m.senderId))

/-- The inbound `message` handler: after removing matching temp entries,
append the incoming message unless an entry with the same id already exists. -/
def onMessageHandler (prev : List ChatMsg) (m : ChatMsg) : List ChatMsg :=
  let wt := withoutTemp prev m
  if wt.any (fun p => p.id = m.id) then wt else wt ++ [m]

/-! ### Concrete example data used by the claims -/

/-- The optimistic message `{id:"temp:1", text:"hi", ts:100}` of the spec. -/
def tempMsgExample : Msg := ⟨"temp:1".data, "assistant".data, "hi".data, some 100⟩

/-- The confirmed message `{id:"srv:9", text:"hi", ts:105}` of the spec. -/
def confirmedMsgExample : Msg := ⟨"srv:9".data, "assistant".data, "hi".data, some 105⟩

end Learnify

/-! ## Lemmas: the priority rule `resolve` is an idempotent, associative
operation (a right-biased maximum for the lexicographic key
(non-tempness, timestamp)), which drives the merge idempotence proof. -/

namespace Learnify

lemma resolve_self (a : Msg) : resolve a a = a := by
  simp [resolve]

lemma resolve_or (a b : Msg) : resolve a b = a ∨ resolve a b = b := by
  unfold resolve
  split_ifs <;> simp

/-- `resolve` is the right-biased maximum for the lexicographic key
(rank, timestamp). -/
lemma resolve_eq_keyRule (a b : Msg) :
    resolve a b =
      if rankOf a < rankOf b ∨ (rankOf a = rankOf b ∧ tsv a ≤ tsv b) then b else a := by
  unfold resolve rankOf
  cases ha : isTempMsg a <;> cases hb : isTempMsg b <;> split_ifs <;> simp_all <;> omega

lemma resolve_assoc (a b c : Msg) : resolve (resolve a b) c = resolve a (resolve b c) := by
  simp only [resolve_eq_keyRule]
  split_ifs <;> first | rfl | (exfalso; omega)

/-- With associativity, a `foldl` can be rotated around its seed. -/
lemma foldl_resolve_shift (S : List Msg) : ∀ w m : Msg,
    S.foldl resolve (resolve w m) = resolve w (S.foldl resolve m) := by
  induction S with
  | nil => intro w m; simp [List.foldl]
  | cons x xs ih =>
    intro w m
    simp only [List.foldl_cons]
    rw [resolve_assoc, ih]

/-- Replaying a whole list of candidates against its own tournament winner
changes nothing. -/
lemma foldl_resolve_replay (w : Msg) (S : List Msg) :
    S.foldl resolve (S.foldl resolve w) = S.foldl resolve w := by
  cases S with
  | nil => simp
  | cons x xs =>
    simp only [List.foldl_cons]
    rw [foldl_resolve_shift xs w x, foldl_resolve_shift xs _ x]
    rw [resolve_assoc, resolve_self]

end Learnify

/-! ## Lemmas: per-key decomposition of the merge map -/

namespace Learnify

lemma lookupKey_set (k : Str) (m : MsgMap) (msg : Msg) :
    lookupKey k (setWithPriority m msg) =
      if keyFor msg = k then
        some (match lookupKey k m with | none => msg | some p => resolve p msg)
      else lookupKey k m := by
  induction m with
  | nil =>
    by_cases h : keyFor msg = k <;> simp [setWithPriority, lookupKey, h]
  | cons hd tl ih =>
    rcases hd with ⟨ka, va⟩
    simp only [setWithPriority]
    by_cases h1 : ka = keyFor msg
    · simp only [if_pos h1]
      by_cases h2 : ka = k
      · have hk : keyFor msg = k := h1 ▸ h2
        simp [lookupKey, h2, hk]
      · have hk : ¬ keyFor msg = k := by rw [← h1]; exact h2
        simp [lookupKey, h2, hk]
    · simp only [if_neg h1]
      by_cases h2 : ka = k
      · have hk : ¬ keyFor msg = k := by
          intro hh
          exact h1 (h2.trans hh.symm)
        simp [lookupKey, h2, hk]
      · simp [lookupKey, h2, ih]

lemma lookupKey_foldl_set (k : Str) (L : List Msg) : ∀ m0 : MsgMap,
    lookupKey k (L.foldl setWithPriority m0) = L.foldl (tourneyStep k) (lookupKey k m0) := by
  induction L with
  | nil => intro m0; rfl
  | cons x xs ih =>
    intro m0
    simp only [List.foldl_cons]
    rw [ih, lookupKey_set]
    rfl

lemma tourney_some (k : Str) (L : List Msg) : ∀ w : Msg,
    L.foldl (tourneyStep k) (some w) =
      some ((L.filter (fun m => decide (keyFor m = k))).foldl resolve w) := by
  induction L with
  | nil => intro w; rfl
  | cons x xs ih =>
    intro w
    by_cases h : keyFor x = k <;>
      simp [tourneyStep, h, List.filter_cons, ih]

lemma tourney_none (k : Str) (L : List Msg) :
    L.foldl (tourneyStep k) none =
      match L.filter (fun m => decide (keyFor m = k)) with
      | [] => none
      | x :: xs => some (xs.foldl resolve x) := by
  induction L with
  | nil => rfl
  | cons x xs ih =>
    by_cases h : keyFor x = k
    · simp [tourneyStep, h, List.filter_cons, tourney_some]
    · simp [tourneyStep, h, List.filter_cons, ih]

/-- Replaying the second argument of a per-key tournament does not change
the winner. -/
lemma tourney_replay (k : Str) (A B : List Msg) :
    B.foldl (tourneyStep k) ((A ++ B).foldl (tourneyStep k) none) =
      (A ++ B).foldl (tourneyStep k) none := by
  have hsplit :=
    List.filter_append (p := fun m => decide (keyFor m = k)) A B
  rw [tourney_none]
  rcases hAB : (A ++ B).filter (fun m => decide (keyFor m = k)) with _ | ⟨x, xs⟩
  · rw [hAB] at hsplit
    have hB : B.filter (fun m => decide (keyFor m = k)) = [] :=
      (List.append_eq_nil.mp hsplit.symm).2
    rw [tourney_none, hB]
  · rw [hAB] at hsplit
    rw [tourney_some]
    rcases hA : A.filter (fun m => decide (keyFor m = k)) with _ | ⟨a, as⟩
    · rw [hA, List.nil_append] at hsplit
      rw [← hsplit]
      simp only [List.foldl_cons]
      rw [foldl_resolve_shift xs _ x, resolve_self]
    · rw [hA, List.cons_append] at hsplit
      have hx : x = a := by injection hsplit
      have hxs : xs = as ++ B.filter (fun m => decide (keyFor m = k)) := by
        injection hsplit
      rw [hx, hxs]
      simp only [List.foldl_append]
      exact congrArg some (foldl_resolve_replay _ _)

end Learnify

/-! ## Lemmas: structure of the merge map (keys, uniqueness, extensionality) -/

namespace Learnify

lemma keysOf_set (m : MsgMap) (msg : Msg) :
    keysOf (setWithPriority m msg) =
      if keyFor msg ∈ keysOf m then keysOf m else keysOf m ++ [keyFor msg] := by
  induction m with
  | nil => simp [setWithPriority, keysOf]
  | cons hd tl ih =>
    rcases hd with ⟨ka, va⟩
    by_cases h1 : ka = keyFor msg
    · simp [setWithPriority, keysOf, h1]
    · have hne : ¬ keyFor msg = ka := fun h => h1 h.symm
      simp only [setWithPriority, if_neg h1, keysOf, List.map_cons] at ih ⊢
      rw [ih]
      by_cases h2 : keyFor msg ∈ List.map Prod.fst tl
      · simp [h2, hne]
      · simp [h2, hne]

lemma keysOf_subset_set (m : MsgMap) (msg : Msg) :
    keysOf m ⊆ keysOf (setWithPriority m msg) := by
  rw [keysOf_set]
  split_ifs
  · exact fun a ha => ha
  · exact fun a ha => List.mem_append_left _ ha

lemma key_mem_set (m : MsgMap) (msg : Msg) :
    keyFor msg ∈ keysOf (setWithPriority m msg) := by
  rw [keysOf_set]
  split_ifs with h
  · exact h
  · exact List.mem_append_right _ (by simp)

lemma keysOf_foldl_subset (L : List Msg) : ∀ m0 : MsgMap,
    keysOf m0 ⊆ keysOf (L.foldl setWithPriority m0) := by
  induction L with
  | nil => intro m0; exact fun a ha => ha
  | cons x xs ih =>
    intro m0
    exact fun a ha => ih (setWithPriority m0 x) (keysOf_subset_set m0 x ha)

lemma key_mem_foldl (L : List Msg) : ∀ m0 : MsgMap, ∀ b ∈ L,
    keyFor b ∈ keysOf (L.foldl setWithPriority m0) := by
  induction L with
  | nil => intro m0 b hb; cases hb
  | cons x xs ih =>
    intro m0 b hb
    rcases List.mem_cons.mp hb with h | h
    · subst h
      exact keysOf_foldl_subset xs _ (key_mem_set m0 b)
    · exact ih _ b h

lemma nodup_keysOf_set (m : MsgMap) (msg : Msg) (h : (keysOf m).Nodup) :
    (keysOf (setWithPriority m msg)).Nodup := by
  rw [keysOf_set]
  split_ifs with hmem
  · exact h
  · simp [List.nodup_append, h, hmem]

lemma nodup_keysOf_foldl (L : List Msg) : ∀ m0 : MsgMap, (keysOf m0).Nodup →
    (keysOf (L.foldl setWithPriority m0)).Nodup := by
  induction L with
  | nil => intro m0 h; exact h
  | cons x xs ih => intro m0 h; exact ih _ (nodup_keysOf_set m0 x h)

lemma keysOk_set (m : MsgMap) (msg : Msg) (h : KeysOk m) :
    KeysOk (setWithPriority m msg) := by
  induction m with
  | nil =>
    intro p hp
    simp [setWithPriority] at hp
    subst hp; rfl
  | cons hd tl ih =>
    rcases hd with ⟨ka, va⟩
    have hka : ka = keyFor va := h (ka, va) (by simp)
    have htl : KeysOk tl := fun p hp => h p (List.mem_cons_of_mem _ hp)
    by_cases h1 : ka = keyFor msg
    · intro p hp
      simp only [setWithPriority, if_pos h1] at hp
      rcases List.mem_cons.mp hp with hh | hh
      · subst hh
        rcases resolve_or va msg with hr | hr
        · simp only [hr]; exact hka
        · simp only [hr]; exact h1
      · exact h p (List.mem_cons_of_mem _ hh)
    · intro p hp
      simp only [setWithPriority, if_neg h1] at hp
      rcases List.mem_cons.mp hp with hh | hh
      · subst hh; exact hka
      · exact ih htl p hh

lemma keysOk_foldl (L : List Msg) : ∀ m0 : MsgMap, KeysOk m0 →
    KeysOk (L.foldl setWithPriority m0) := by
  induction L with
  | nil => intro m0 h; exact h
  | cons x xs ih => intro m0 h; exact ih _ (keysOk_set m0 x h)

lemma keysOk_eq_fromKeyed (m : MsgMap) (h : KeysOk m) : m = fromKeyed (valuesOf m) := by
  induction m with
  | nil => rfl
  | cons hd tl ih =>
    rcases hd with ⟨ka, va⟩
    have hka : ka = keyFor va := h (ka, va) (by simp)
    have htl : KeysOk tl := fun p hp => h p (List.mem_cons_of_mem _ hp)
    simp only [fromKeyed, valuesOf, List.map_cons]
    rw [← hka]
    exact congrArg _ (ih htl)

lemma set_of_not_mem (m : MsgMap) (msg : Msg) (h : keyFor msg ∉ keysOf m) :
    setWithPriority m msg = m ++ [(keyFor msg, msg)] := by
  induction m with
  | nil => rfl
  | cons hd tl ih =>
    rcases hd with ⟨ka, va⟩
    have h1 : ¬ ka = keyFor msg := by
      intro hh
      exact h (by simp [keysOf, hh])
    have htl : keyFor msg ∉ keysOf tl := by
      intro hh
      exact h (by simp [keysOf] at hh ⊢; right; exact hh)
    simp [setWithPriority, h1, ih htl]

lemma foldl_set_fresh (V : List Msg) : ∀ m0 : MsgMap,
    (V.map keyFor).Nodup → (∀ v ∈ V, keyFor v ∉ keysOf m0) →
    V.foldl setWithPriority m0 = m0 ++ fromKeyed V := by
  induction V with
  | nil => intro m0 _ _; simp [fromKeyed]
  | cons v vs ih =>
    intro m0 hnd hfresh
    have hnd1 : (keyFor v :: vs.map keyFor).Nodup := by simpa using hnd
    obtain ⟨hvnotin, hndtail⟩ := List.nodup_cons.mp hnd1
    have hfresh2 : ∀ u ∈ vs, keyFor u ∉ keysOf (m0 ++ [(keyFor v, v)]) := by
      intro u hu
      have h1 : keyFor u ∉ keysOf m0 := hfresh u (List.mem_cons_of_mem _ hu)
      have h2 : ¬ keyFor u = keyFor v := fun hh =>
        hvnotin (hh ▸ List.mem_map_of_mem keyFor hu)
      intro hmem
      rw [keysOf, List.map_append] at hmem
      rcases List.mem_append.mp hmem with hmem | hmem
      · exact h1 hmem
      · simp only [List.map_cons, List.map_nil, List.mem_singleton] at hmem
        exact h2 hmem
    simp only [List.foldl_cons]
    rw [set_of_not_mem m0 v (hfresh v (by simp))]
    rw [ih _ hndtail hfresh2]
    simp [fromKeyed]

lemma lookupKey_eq_none_iff (k : Str) (m : MsgMap) :
    lookupKey k m = none ↔ k ∉ keysOf m := by
  induction m with
  | nil => simp [lookupKey, keysOf]
  | cons hd tl ih =>
    rcases hd with ⟨ka, va⟩
    by_cases h : ka = k
    · subst h
      simp [lookupKey, keysOf]
    · have h2 : ¬ k = ka := fun hh => h hh.symm
      simp [lookupKey, keysOf, h, h2, ih]

lemma lookup_some_mem (k : Str) (m : MsgMap) (v : Msg)
    (h : lookupKey k m = some v) : (k, v) ∈ m := by
  induction m with
  | nil => simp [lookupKey] at h
  | cons hd tl ih =>
    rcases hd with ⟨ka, va⟩
    by_cases hk : ka = k
    · subst hk
      simp [lookupKey] at h
      subst h; simp
    · simp only [lookupKey, if_neg hk] at h
      exact List.mem_cons_of_mem _ (ih h)

lemma mem_lookup_of_nodup (k : Str) (m : MsgMap) (v : Msg)
    (hnd : (keysOf m).Nodup) (h : (k, v) ∈ m) : lookupKey k m = some v := by
  induction m with
  | nil => cases h
  | cons hd tl ih =>
    rcases hd with ⟨ka, va⟩
    rcases List.mem_cons.mp h with hh | hh
    · injection hh with h1 h2
      subst h1; subst h2
      simp [lookupKey]
    · have hk : ¬ ka = k := by
        intro he
        subst he
        have : ka ∈ keysOf tl := by
          simp [keysOf]
          exact ⟨v, hh⟩
        exact (List.nodup_cons.mp (by simpa [keysOf] using hnd)).1 this
      simp only [lookupKey, if_neg hk]
      exact ih (List.nodup_cons.mp (by simpa [keysOf] using hnd)).2 hh

lemma lookup_eq_of_perm (k : Str) (m1 m2 : MsgMap)
    (hperm : m1.Perm m2) (hnd : (keysOf m1).Nodup) :
    lookupKey k m1 = lookupKey k m2 := by
  have hnd2 : (keysOf m2).Nodup := by
    have : (keysOf m1).Perm (keysOf m2) := hperm.map Prod.fst
    exact this.nodup_iff.mp hnd
  rcases h1 : lookupKey k m1 with _ | v
  · rcases h2 : lookupKey k m2 with _ | v2
    · rfl
    · exfalso
      have hmem := lookup_some_mem k m2 v2 h2
      have : (k, v2) ∈ m1 := hperm.symm.subset hmem
      have := mem_lookup_of_nodup k m1 v2 hnd this
      rw [h1] at this
      cases this
  · have hmem := lookup_some_mem k m1 v h1
    exact (mem_lookup_of_nodup k m2 v hnd2 (hperm.subset hmem)).symm

lemma assoc_ext : ∀ m1 m2 : MsgMap, keysOf m1 = keysOf m2 → (keysOf m1).Nodup →
    (∀ k, lookupKey k m1 = lookupKey k m2) → m1 = m2 := by
  intro m1
  induction m1 with
  | nil =>
    intro m2 hkeys _ _
    have h0 : keysOf m2 = [] := hkeys.symm
    simp only [keysOf] at h0
    exact ((List.map_eq_nil_iff.mp h0).symm ▸ rfl)
  | cons hd tl ih =>
    intro m2 hkeys hnd hlook
    rcases hd with ⟨ka, va⟩
    rcases m2 with _ | ⟨⟨kb, vb⟩, tl2⟩
    · simp [keysOf] at hkeys
    · simp only [keysOf, List.map_cons, List.cons.injEq] at hkeys
      obtain ⟨hk, htlkeys⟩ := hkeys
      have hknotin : ka ∉ List.map Prod.fst tl :=
        (List.nodup_cons.mp (by simpa [keysOf] using hnd)).1
      have hndtl : (keysOf tl).Nodup :=
        (List.nodup_cons.mp (by simpa [keysOf] using hnd)).2
      have hv : va = vb := by
        have hlk := hlook ka
        have hbk : kb = ka := hk.symm
        simp only [lookupKey, if_pos rfl, if_pos hbk] at hlk
        injection hlk
      have htl : tl = tl2 := by
        apply ih tl2 (by simpa [keysOf] using htlkeys) hndtl
        intro k
        by_cases hka : k = ka
        · subst hka
          have e1 : lookupKey k tl = none :=
            (lookupKey_eq_none_iff k tl).mpr (by simpa [keysOf] using hknotin)
          have e2 : lookupKey k tl2 = none := by
            apply (lookupKey_eq_none_iff k tl2).mpr
            simp only [keysOf, ← htlkeys]
            simpa [keysOf] using hknotin
          rw [e1, e2]
        · have hlk := hlook k
          have hne1 : ¬ ka = k := fun hh => hka hh.symm
          have hne2 : ¬ kb = k := by rw [← hk]; exact hne1
          simpa [lookupKey, hne1, hne2] using hlk
      rw [hk, hv, htl]

end Learnify

/-! ## Lemmas: assembling the merge idempotence argument -/

namespace Learnify

lemma keysOf_set_of_mem (m : MsgMap) (msg : Msg) (h : keyFor msg ∈ keysOf m) :
    keysOf (setWithPriority m msg) = keysOf m := by
  rw [keysOf_set, if_pos h]

lemma keysOf_foldl_of_mem (L : List Msg) : ∀ m0 : MsgMap,
    (∀ b ∈ L, keyFor b ∈ keysOf m0) →
    keysOf (L.foldl setWithPriority m0) = keysOf m0 := by
  induction L with
  | nil => intro m0 _; rfl
  | cons x xs ih =>
    intro m0 h
    simp only [List.foldl_cons]
    have hx : keysOf (setWithPriority m0 x) = keysOf m0 :=
      keysOf_set_of_mem m0 x (h x (by simp))
    rw [ih _ (by intro b hb; rw [hx]; exact h b (List.mem_cons_of_mem _ hb)), hx]

lemma valuesOf_fromKeyed (vals : List Msg) : valuesOf (fromKeyed vals) = vals := by
  simp only [valuesOf, fromKeyed, List.map_map]
  exact List.map_id vals

lemma sortTs_sortTs (l : List Msg) : sortTs (sortTs l) = sortTs l :=
  List.Sorted.insertionSort_eq (List.sorted_insertionSort tsLe l)

lemma merge_lookup (A B : List Msg) (k : Str) :
    lookupKey k (B.foldl setWithPriority (A.foldl setWithPriority [])) =
      (A ++ B).foldl (tourneyStep k) none := by
  rw [← List.foldl_append, lookupKey_foldl_set]
  rfl

/-- The heart of merge idempotence: replaying `B` against the map already
reconciled from `A` and `B` reproduces that map entry for entry. -/
lemma foldl_set_replay (A B : List Msg) :
    B.foldl setWithPriority
        (fromKeyed (sortTs (valuesOf (B.foldl setWithPriority (A.foldl setWithPriority []))))) =
      fromKeyed (sortTs (valuesOf (B.foldl setWithPriority (A.foldl setWithPriority [])))) := by
  have hOkNil : KeysOk ([] : MsgMap) := by intro p hp; cases hp
  have hOk : KeysOk (B.foldl setWithPriority (A.foldl setWithPriority [])) :=
    keysOk_foldl B _ (keysOk_foldl A [] hOkNil)
  have hnd : (keysOf (B.foldl setWithPriority (A.foldl setWithPriority []))).Nodup :=
    nodup_keysOf_foldl B _ (nodup_keysOf_foldl A [] (by simp [keysOf]))
  have hperm :
      (sortTs (valuesOf (B.foldl setWithPriority (A.foldl setWithPriority [])))).Perm
        (valuesOf (B.foldl setWithPriority (A.foldl setWithPriority []))) :=
    List.perm_insertionSort tsLe _
  have hkeysEq :
      keysOf (B.foldl setWithPriority (A.foldl setWithPriority [])) =
        (valuesOf (B.foldl setWithPriority (A.foldl setWithPriority []))).map keyFor := by
    conv_lhs => rw [keysOk_eq_fromKeyed _ hOk]
    simp [fromKeyed, keysOf, List.map_map, Function.comp]
  have hndM :
      ((sortTs (valuesOf (B.foldl setWithPriority (A.foldl setWithPriority [])))).map keyFor).Nodup := by
    have hp := hperm.map keyFor
    exact hp.nodup_iff.mpr (hkeysEq ▸ hnd)
  have hpermMap :
      (fromKeyed (sortTs (valuesOf (B.foldl setWithPriority (A.foldl setWithPriority []))))).Perm
        (B.foldl setWithPriority (A.foldl setWithPriority [])) := by
    conv_rhs => rw [keysOk_eq_fromKeyed _ hOk]
    exact hperm.map _
  have hndFM :
      (keysOf (fromKeyed (sortTs (valuesOf (B.foldl setWithPriority (A.foldl setWithPriority [])))))).Nodup := by
    simp only [keysOf, fromKeyed, List.map_map]
    simpa [Function.comp] using hndM
  have hBkeys : ∀ b ∈ B,
      keyFor b ∈ keysOf (fromKeyed (sortTs (valuesOf (B.foldl setWithPriority (A.foldl setWithPriority []))))) := by
    intro b hb
    have h3 : keyFor b ∈ keysOf (B.foldl setWithPriority (A.foldl setWithPriority [])) :=
      key_mem_foldl B _ b hb
    have h4 := hpermMap.map Prod.fst
    exact h4.mem_iff.mpr h3
  apply assoc_ext
  · exact keysOf_foldl_of_mem B _ hBkeys
  · rw [keysOf_foldl_of_mem B _ hBkeys]
    exact hndFM
  · intro k
    have l1 : lookupKey k (fromKeyed (sortTs (valuesOf (B.foldl setWithPriority (A.foldl setWithPriority []))))) =
        lookupKey k (B.foldl setWithPriority (A.foldl setWithPriority [])) :=
      lookup_eq_of_perm k _ _ hpermMap hndFM
    rw [lookupKey_foldl_set, l1, merge_lookup, tourney_replay, ← merge_lookup A B k, ← l1]

end Learnify

namespace Learnify

/-- Folding the merged, sorted values into an empty map reproduces them as an
association list: their keys are pairwise distinct. -/
lemma foldl_set_merge_inner (A B : List Msg) :
    ((sortTs (valuesOf (B.foldl setWithPriority (A.foldl setWithPriority [])))).foldl
        setWithPriority []) =
      fromKeyed (sortTs (valuesOf (B.foldl setWithPriority (A.foldl setWithPriority [])))) := by
  have hOkNil : KeysOk ([] : MsgMap) := by intro p hp; cases hp
  have hOk : KeysOk (B.foldl setWithPriority (A.foldl setWithPriority [])) :=
    keysOk_foldl B _ (keysOk_foldl A [] hOkNil)
  have hnd : (keysOf (B.foldl setWithPriority (A.foldl setWithPriority []))).Nodup :=
    nodup_keysOf_foldl B _ (nodup_keysOf_foldl A [] (by simp [keysOf]))
  have hperm :
      (sortTs (valuesOf (B.foldl setWithPriority (A.foldl setWithPriority [])))).Perm
        (valuesOf (B.foldl setWithPriority (A.foldl setWithPriority []))) :=
    List.perm_insertionSort tsLe _
  have hkeysEq :
      keysOf (B.foldl setWithPriority (A.foldl setWithPriority [])) =
        (valuesOf (B.foldl setWithPriority (A.foldl setWithPriority []))).map keyFor := by
    conv_lhs => rw [keysOk_eq_fromKeyed _ hOk]
    simp [fromKeyed, keysOf, List.map_map, Function.comp]
  have hndM :
      ((sortTs (valuesOf (B.foldl setWithPriority (A.foldl setWithPriority [])))).map keyFor).Nodup :=
    (hperm.map keyFor).nodup_iff.mpr (hkeysEq ▸ hnd)
  have hmain := foldl_set_fresh
    (sortTs (valuesOf (B.foldl setWithPriority (A.foldl setWithPriority [])))) []
    hndM (by intro v hv; simp [keysOf])
  simpa using hmain

end Learnify

/-! ## Lemmas: the tokenizer reconstructs its input up to leading whitespace -/

namespace Learnify

lemma tokAux_ne_nil (l : Str) : ∀ cur b, cur ≠ [] → tokAux l cur b ≠ [] := by
  induction l with
  | nil => intro cur b h; simp [tokAux, h]
  | cons c cs ih =>
    intro cur b h
    simp only [tokAux]
    by_cases hw : isWs c
    · rw [if_pos hw, if_neg h]
      exact ih (c :: cur) true (by simp)
    · rw [if_neg hw]
      cases b
      · simp only [Bool.false_eq_true, if_false]
        exact ih (c :: cur) false (by simp)
      · simp

lemma flatten_tokAux_ne (l : Str) : ∀ cur b, cur ≠ [] →
    (tokAux l cur b).flatten = cur.reverse ++ l := by
  induction l with
  | nil => intro cur b h; simp [tokAux, h]
  | cons c cs ih =>
    intro cur b h
    simp only [tokAux]
    by_cases hw : isWs c
    · rw [if_pos hw, if_neg h, ih (c :: cur) true (by simp)]
      simp
    · rw [if_neg hw]
      cases b
      · simp only [Bool.false_eq_true, if_false]
        rw [ih (c :: cur) false (by simp)]
        simp
      · simp only [if_true]
        rw [List.flatten_cons, ih [c] false (by simp)]
        simp

lemma flatten_tokAux_start (l : Str) :
    (tokAux l [] false).flatten = l.dropWhile isWs := by
  induction l with
  | nil => simp [tokAux]
  | cons c cs ih =>
    simp only [tokAux]
    by_cases hw : isWs c
    · rw [if_pos hw, if_true, ih, List.dropWhile_cons_of_pos hw]
    · rw [if_neg hw]
      simp only [Bool.false_eq_true, if_false]
      rw [flatten_tokAux_ne cs [c] false (by simp), List.dropWhile_cons_of_neg hw]
      simp

lemma tokAux_start_eq_nil_iff (l : Str) :
    tokAux l [] false = [] ↔ ∀ c ∈ l, isWs c = true := by
  induction l with
  | nil => simp [tokAux]
  | cons c cs ih =>
    simp only [tokAux]
    by_cases hw : isWs c
    · rw [if_pos hw, if_true, ih]
      simp [hw]
    · rw [if_neg hw]
      simp only [Bool.false_eq_true, if_false]
      constructor
      · intro h
        exact absurd h (tokAux_ne_nil cs [c] false (by simp))
      · intro h
        exact absurd (h c (by simp)) (by simp [hw])

end Learnify

/-! ## Lemmas: every chunk fits the limit or is an unbreakable word -/

namespace Learnify

lemma rev_ok_of_const (cur : Str) (b : Bool) (h : ∀ c ∈ cur, isWs c = b) :
    NoWsStr cur.reverse ∨ AllWsStr cur.reverse := by
  cases b
  · exact Or.inl (fun c hc => h c (List.mem_reverse.mp hc))
  · exact Or.inr (fun c hc => h c (List.mem_reverse.mp hc))

lemma splitWsAux_elems (l : Str) : ∀ (cur : Str) (curWs : Bool),
    (∀ c ∈ cur, isWs c = curWs) →
    ∀ w ∈ splitWsAux cur curWs l, NoWsStr w ∨ AllWsStr w := by
  induction l with
  | nil =>
    intro cur curWs hcur w hw
    cases curWs
    · simp only [splitWsAux, Bool.false_eq_true, if_false, List.mem_singleton] at hw
      subst hw
      exact rev_ok_of_const cur false hcur
    · simp only [splitWsAux, if_true] at hw
      rcases List.mem_cons.mp hw with hw | hw
      · subst hw; exact rev_ok_of_const cur true hcur
      · simp only [List.mem_singleton] at hw
        subst hw; exact Or.inl (by intro c hc; cases hc)
  | cons c cs ih =>
    intro cur curWs hcur w hw
    simp only [splitWsAux] at hw
    by_cases hc : isWs c = curWs
    · rw [if_pos hc] at hw
      refine ih (c :: cur) curWs ?_ w hw
      intro x hx
      rcases List.mem_cons.mp hx with h | h
      · subst h; exact hc
      · exact hcur x h
    · rw [if_neg hc] at hw
      rcases List.mem_cons.mp hw with h | h
      · subst h; exact rev_ok_of_const cur curWs hcur
      · exact ih [c] (isWs c) (by simp) w h

lemma jsSplitKeepWs_elems (s : Str) :
    ∀ w ∈ jsSplitKeepWs s, NoWsStr w ∨ AllWsStr w :=
  splitWsAux_elems s [] false (by simp)

lemma wordFold_inv (maxLen : Nat) : ∀ (ws : List Str) (st : List Str × Str),
    (∀ w ∈ ws, NoWsStr w ∨ AllWsStr w) →
    (∀ ch ∈ st.1, ch.length ≤ maxLen ∨ NoWsStr ch ∨ AllWsStr ch) →
    (st.2.length ≤ maxLen ∨ NoWsStr st.2 ∨ AllWsStr st.2) →
    (∀ ch ∈ (ws.foldl (wordFold maxLen) st).1,
        ch.length ≤ maxLen ∨ NoWsStr ch ∨ AllWsStr ch) ∧
    ((ws.foldl (wordFold maxLen) st).2.length ≤ maxLen ∨
        NoWsStr (ws.foldl (wordFold maxLen) st).2 ∨
        AllWsStr (ws.foldl (wordFold maxLen) st).2) := by
  intro ws
  induction ws with
  | nil => intro st _ h1 h2; exact ⟨h1, h2⟩
  | cons w rest ih =>
    intro st hws h1 h2
    simp only [List.foldl_cons]
    have hw : NoWsStr w ∨ AllWsStr w := hws w (by simp)
    have hrest : ∀ u ∈ rest, NoWsStr u ∨ AllWsStr u :=
      fun u hu => hws u (List.mem_cons_of_mem _ hu)
    apply ih (wordFold maxLen st w) hrest
    · intro ch hch
      unfold wordFold at hch
      split_ifs at hch
      · exact h1 ch hch
      · exact h1 ch hch
      · rcases List.mem_append.mp hch with h | h
        · exact h1 ch h
        · simp only [List.mem_singleton] at h
          subst h; exact h2
    · unfold wordFold
      split_ifs with ha hb
      · simp only []
        left
        simpa [List.length_append] using ha
      · exact Or.inr hw
      · exact Or.inr hw

lemma sentenceFold_inv (maxLen : Nat) : ∀ (ss : List Str) (st : List Str × Str),
    (∀ ch ∈ st.1, ch.length ≤ maxLen ∨ NoWsStr ch ∨ AllWsStr ch) →
    (st.2.length ≤ maxLen ∨ NoWsStr st.2 ∨ AllWsStr st.2) →
    (∀ ch ∈ (ss.foldl (sentenceStep maxLen) st).1,
        ch.length ≤ maxLen ∨ NoWsStr ch ∨ AllWsStr ch) ∧
    ((ss.foldl (sentenceStep maxLen) st).2.length ≤ maxLen ∨
        NoWsStr (ss.foldl (sentenceStep maxLen) st).2 ∨
        AllWsStr (ss.foldl (sentenceStep maxLen) st).2) := by
  intro ss
  induction ss with
  | nil => intro st h1 h2; exact ⟨h1, h2⟩
  | cons s rest ih =>
    intro st h1 h2
    simp only [List.foldl_cons]
    have hchunks1 : ∀ ch ∈ (if st.2 = [] then st.1 else st.1 ++ [st.2]),
        ch.length ≤ maxLen ∨ NoWsStr ch ∨ AllWsStr ch := by
      split_ifs
      · exact h1
      · intro ch hch
        rcases List.mem_append.mp hch with h | h
        · exact h1 ch h
        · simp only [List.mem_singleton] at h
          subst h; exact h2
    have hcat : ∀ ch ∈ st.1 ++ [st.2], ch.length ≤ maxLen ∨ NoWsStr ch ∨ AllWsStr ch := by
      intro ch hch
      rcases List.mem_append.mp hch with h | h
      · exact h1 ch h
      · simp only [List.mem_singleton] at h
        subst h; exact h2
    apply ih
    · intro ch hch
      unfold sentenceStep at hch
      split_ifs at hch with ha hb hc hd
      · exact h1 ch hch
      · simp only at hch
        exact h1 ch hch
      · simp only at hch
        exact (wordFold_inv maxLen (jsSplitKeepWs s) (st.1, [])
          (jsSplitKeepWs_elems s) h1 (by simp)).1 ch hch
      · simp only at hch
        exact hcat ch hch
      · simp only at hch
        exact (wordFold_inv maxLen (jsSplitKeepWs s) (st.1 ++ [st.2], [])
          (jsSplitKeepWs_elems s) hcat (by simp)).1 ch hch
    · unfold sentenceStep
      split_ifs with ha hb hc hd
      · left
        simpa [List.length_append] using ha
      · simp only
        left; exact hc
      · simp only
        exact (wordFold_inv maxLen (jsSplitKeepWs s) (st.1, [])
          (jsSplitKeepWs_elems s) h1 (by simp)).2
      · simp only
        left; exact hd
      · simp only
        exact (wordFold_inv maxLen (jsSplitKeepWs s) (st.1 ++ [st.2], [])
          (jsSplitKeepWs_elems s) hcat (by simp)).2

lemma wsTrim_length_le (s : Str) : (wsTrim s).length ≤ s.length := by
  unfold wsTrim
  rw [List.length_reverse]
  calc ((s.dropWhile isWs).reverse.dropWhile isWs).length
      ≤ (s.dropWhile isWs).reverse.length :=
        List.Sublist.length_le (List.dropWhile_sublist isWs)
    _ = (s.dropWhile isWs).length := List.length_reverse _
    _ ≤ s.length := List.Sublist.length_le (List.dropWhile_sublist isWs)

lemma dropWhile_eq_self_of_noWs (s : Str) (h : NoWsStr s) : s.dropWhile isWs = s := by
  cases s with
  | nil => rfl
  | cons c cs =>
    apply List.dropWhile_cons_of_neg
    simp [h c (by simp)]

lemma wsTrim_of_noWs (s : Str) (h : NoWsStr s) : wsTrim s = s := by
  unfold wsTrim
  rw [dropWhile_eq_self_of_noWs s h,
    dropWhile_eq_self_of_noWs s.reverse (fun c hc => h c (List.mem_reverse.mp hc)),
    List.reverse_reverse]

lemma wsTrim_of_allWs (s : Str) (h : AllWsStr s) : wsTrim s = [] := by
  unfold wsTrim
  have h1 : s.dropWhile isWs = [] := List.dropWhile_eq_nil_iff.mpr h
  rw [h1]
  rfl

/-- Every chunk produced by `splitIntoChunks` either respects the limit or is
a single whitespace-free word (which the word fallback never breaks). -/
lemma splitIntoChunks_bound (text : Str) (maxLen : Nat) :
    ∀ c ∈ splitIntoChunks text maxLen, c.length ≤ maxLen ∨ NoWsStr c := by
  intro c hc
  unfold splitIntoChunks at hc
  by_cases h0 : text = [] ∨ text.length ≤ maxLen
  · rw [if_pos h0] at hc
    simp only [List.mem_singleton] at hc
    subst hc
    rcases h0 with h0 | h0
    · subst h0; left; simp
    · exact Or.inl h0
  · rw [if_neg h0] at hc
    have hfold := sentenceFold_inv maxLen (sentencesOf text) ([], [])
      (by intro ch hch; cases hch) (by simp)
    rcases List.mem_filter.mp hc with ⟨hmem, hne⟩
    rcases List.mem_map.mp hmem with ⟨c0, hc0, rfl⟩
    have hok : c0.length ≤ maxLen ∨ NoWsStr c0 ∨ AllWsStr c0 := by
      rcases hsplit : ((sentencesOf text).foldl (sentenceStep maxLen) ([], [])) with ⟨chunks, cur⟩
      rw [hsplit] at hfold hc0
      simp only at hc0
      by_cases hcur : cur = []
      · rw [if_pos hcur] at hc0
        exact hfold.1 c0 hc0
      · rw [if_neg hcur] at hc0
        rcases List.mem_append.mp hc0 with h | h
        · exact hfold.1 c0 h
        · simp only [List.mem_singleton] at h
          subst h
          exact hfold.2
    rcases hok with h | h | h
    · exact Or.inl (le_trans (wsTrim_length_le c0) h)
    · rw [wsTrim_of_noWs c0 h]
      exact Or.inr h
    · rw [wsTrim_of_allWs c0 h] at hne
      simp at hne

end Learnify

/-! ## Lemmas: the cumulative viseme timeline is monotone -/

namespace Learnify

lemma le_getLast_of_chain : ∀ l : List ℚ, l.Chain' (· ≤ ·) →
    ∀ x ∈ l, ∀ y ∈ l.getLast?, x ≤ y := by
  intro l
  induction l with
  | nil => intro _ x hx; cases hx
  | cons a tail ih =>
    intro hch x hx y hy
    cases tail with
    | nil =>
      simp only [List.getLast?_singleton, Option.mem_some_iff] at hy
      simp only [List.mem_singleton] at hx
      subst hy; subst hx
      exact le_refl _
    | cons b tb =>
      obtain ⟨hab, hch2⟩ := List.chain'_cons.mp hch
      rw [List.getLast?_cons_cons] at hy
      rcases List.mem_cons.mp hx with hx | hx
      · subst hx
        exact le_trans hab (ih hch2 b (by simp) y hy)
      · exact ih hch2 x hx y hy

lemma speakAccum_fold_inv (pause : ℚ) (hpause : 0 ≤ pause) :
    ∀ (chunks : List ChunkPlayback) (acc : List (ℚ × Int)) (off : ℚ),
    (∀ c ∈ chunks, ((chunkLocalVisemes c).map Prod.fst).Chain' (· ≤ ·)) →
    (∀ c ∈ chunks, ∀ v ∈ chunkLocalVisemes c, 0 ≤ v.1) →
    (∀ c ∈ chunks, ∀ d, c.audioDuration = some d →
      0 ≤ d * 1000 ∧ ∀ v ∈ chunkLocalVisemes c, v.1 ≤ d * 1000) →
    ((acc.map Prod.fst).Chain' (· ≤ ·)) →
    (∀ v ∈ acc, v.1 ≤ off) →
    (((chunks.foldl (speakChunkStep pause) (acc, off)).1.map Prod.fst).Chain' (· ≤ ·)) ∧
    ∀ v ∈ (chunks.foldl (speakChunkStep pause) (acc, off)).1,
      v.1 ≤ (chunks.foldl (speakChunkStep pause) (acc, off)).2 := by
  intro chunks
  induction chunks with
  | nil => intro acc off _ _ _ hacc hbound; exact ⟨hacc, hbound⟩
  | cons c rest ih =>
    intro acc off hs hn hd hacc hbound
    simp only [List.foldl_cons]
    have hsc := hs c (by simp)
    have hnc := hn c (by simp)
    have hdc := hd c (by simp)
    have hdur : 0 ≤ chunkDurMs pause c ∧
        ∀ v ∈ chunkLocalVisemes c, v.1 ≤ chunkDurMs pause c := by
      cases had : c.audioDuration with
      | some d =>
        obtain ⟨h1, h2⟩ := hdc d had
        constructor
        · simp only [chunkDurMs, had]
          exact h1
        · intro v hv
          simp only [chunkDurMs, had]
          exact h2 v hv
      | none =>
        cases hlast : (chunkLocalVisemes c).getLast? with
        | none =>
          have hemp : chunkLocalVisemes c = [] := by
            cases hl : chunkLocalVisemes c with
            | nil => rfl
            | cons x xs =>
              rw [hl] at hlast
              simp [List.getLast?] at hlast
          constructor
          · simp only [chunkDurMs, had, hlast]
            exact le_refl 0
          · intro v hv
            rw [hemp] at hv
            cases hv
        | some last =>
          have hlastmem : last ∈ chunkLocalVisemes c :=
            List.mem_of_mem_getLast? (by rw [Option.mem_def, hlast])
          have h0 : 0 ≤ last.1 := hnc last hlastmem
          constructor
          · simp only [chunkDurMs, had, hlast]
            linarith
          · intro v hv
            have hvle : v.1 ≤ last.1 := by
              apply le_getLast_of_chain _ hsc v.1 (List.mem_map_of_mem Prod.fst hv)
              rw [Option.mem_def, List.getLast?_map, hlast]
              rfl
            simp only [chunkDurMs, had, hlast]
            linarith
    have hshift : (((chunkLocalVisemes c).map (fun v => (v.1 + off, v.2))).map Prod.fst)
        = ((chunkLocalVisemes c).map Prod.fst).map (fun x => x + off) := by
      simp only [List.map_map]
      rfl
    have hAch : (((acc ++ (chunkLocalVisemes c).map (fun v => (v.1 + off, v.2))).map Prod.fst).Chain'
        (· ≤ ·)) := by
      rw [List.map_append]
      apply List.Chain'.append hacc
      · rw [hshift, List.chain'_map]
        exact hsc.imp (fun a b hab => by linarith)
      · intro x hx y hy
        have hxmem : x ∈ acc.map Prod.fst := List.mem_of_mem_getLast? hx
        obtain ⟨vx, hvx, rfl⟩ := List.mem_map.mp hxmem
        have hx_off : vx.1 ≤ off := hbound vx hvx
        have hymem : y ∈ ((chunkLocalVisemes c).map (fun v => (v.1 + off, v.2))).map Prod.fst :=
          List.mem_of_mem_head? hy
        rw [hshift] at hymem
        obtain ⟨w, hw, rfl⟩ := List.mem_map.mp hymem
        obtain ⟨v0, hv0, rfl⟩ := List.mem_map.mp hw
        have h0 : 0 ≤ v0.1 := hnc v0 hv0
        show vx.1 ≤ v0.1 + off
        linarith
    have hAbound : ∀ v ∈ acc ++ (chunkLocalVisemes c).map (fun v => (v.1 + off, v.2)),
        v.1 ≤ off + chunkDurMs pause c := by
      intro v hv
      rcases List.mem_append.mp hv with h | h
      · have := hbound v h
        linarith [hdur.1]
      · obtain ⟨w, hw, rfl⟩ := List.mem_map.mp h
        have := hdur.2 w hw
        show w.1 + off ≤ off + chunkDurMs pause c
        linarith
    exact ih _ _
      (fun x hx => hs x (List.mem_cons_of_mem _ hx))
      (fun x hx => hn x (List.mem_cons_of_mem _ hx))
      (fun x hx => hd x (List.mem_cons_of_mem _ hx))
      hAch hAbound

end Learnify

/-! ## Lemmas: `handleStop` does not interrupt the lesson loop -/

namespace Learnify

lemma lessonStep_messages (p : Str → Str) (c : Nat → Int) (sd : Option Nat)
    (i : Nat) (sec : LessonSection) (s : LessonSt) :
    (lessonStep p c sd i sec s).messages = s.messages ++ [sectionMsg p (c i) sec] := by
  unfold lessonStep handleStop
  split_ifs <;> rfl

lemma lessonStep_spoken (p : Str → Str) (c : Nat → Int) (sd : Option Nat)
    (i : Nat) (sec : LessonSection) (s : LessonSt) :
    (lessonStep p c sd i sec s).spoken =
      s.spoken ++ (if normalizeText sec.content ≠ [] then [normalizeText sec.content] else []) := by
  unfold lessonStep handleStop
  split_ifs <;> simp

/-- The transcript and the narration sequence do not depend on when (or
whether) the user presses Stop: the loop body never consults the flag. -/
lemma runLessonAux_stop_invisible (p : Str → Str) (c : Nat → Int) (secs : List LessonSection) :
    ∀ (i : Nat) (sd1 sd2 : Option Nat) (s1 s2 : LessonSt),
    s1.messages = s2.messages → s1.spoken = s2.spoken →
    (runLessonAux p c sd1 i secs s1).messages = (runLessonAux p c sd2 i secs s2).messages ∧
    (runLessonAux p c sd1 i secs s1).spoken = (runLessonAux p c sd2 i secs s2).spoken := by
  induction secs with
  | nil => intro i sd1 sd2 s1 s2 hm hs; exact ⟨hm, hs⟩
  | cons sec rest ih =>
    intro i sd1 sd2 s1 s2 hm hs
    simp only [runLessonAux]
    apply ih
    · rw [lessonStep_messages, lessonStep_messages, hm]
    · rw [lessonStep_spoken, lessonStep_spoken, hs]

lemma lessonStep_keeps_stop (p : Str → Str) (c : Nat → Int) (sd : Option Nat)
    (i : Nat) (sec : LessonSection) (s : LessonSt)
    (h1 : s.cancelled = true) (h2 : s.streamingQueue = []) :
    (lessonStep p c sd i sec s).cancelled = true ∧
    (lessonStep p c sd i sec s).streamingQueue = [] := by
  unfold lessonStep handleStop
  split_ifs <;> simp_all

lemma runLessonAux_keeps_stop (p : Str → Str) (c : Nat → Int) (sd : Option Nat)
    (secs : List LessonSection) : ∀ (i : Nat) (s : LessonSt),
    s.cancelled = true → s.streamingQueue = [] →
    (runLessonAux p c sd i secs s).cancelled = true ∧
    (runLessonAux p c sd i secs s).streamingQueue = [] := by
  induction secs with
  | nil => intro i s h1 h2; exact ⟨h1, h2⟩
  | cons sec rest ih =>
    intro i s h1 h2
    simp only [runLessonAux]
    obtain ⟨g1, g2⟩ := lessonStep_keeps_stop p c sd i sec s h1 h2
    exact ih (i + 1) _ g1 g2

lemma lessonStep_fires (p : Str → Str) (c : Nat → Int) (i : Nat)
    (sec : LessonSection) (s : LessonSt) :
    (lessonStep p c (some i) i sec s).cancelled = true ∧
    (lessonStep p c (some i) i sec s).streamingQueue = [] := by
  simp [lessonStep, handleStop]

/-- If the user presses Stop during section `j` and the run reaches that
section, the cancellation flag ends set and the pending unit queue ends
empty — but (per `runLessonAux_stop_invisible`) nothing else differs. -/
lemma runLessonAux_stop_flags (p : Str → Str) (c : Nat → Int) (j : Nat)
    (secs : List LessonSection) : ∀ (i : Nat) (s : LessonSt),
    i ≤ j → j < i + secs.length →
    (runLessonAux p c (some j) i secs s).cancelled = true ∧
    (runLessonAux p c (some j) i secs s).streamingQueue = [] := by
  induction secs with
  | nil =>
    intro i s hij hlt
    simp at hlt
    omega
  | cons sec rest ih =>
    intro i s hij hlt
    simp only [runLessonAux]
    by_cases hj : j = i
    · subst hj
      obtain ⟨g1, g2⟩ := lessonStep_fires p c j sec s
      exact runLessonAux_keeps_stop p c (some j) rest (j + 1) _ g1 g2
    · apply ih (i + 1)
      · omega
      · simp only [List.length_cons] at hlt
        omega

end Learnify

/-! ## Lemmas: unparseable SSE payloads are dispatched as raw chunks -/

namespace Learnify

lemma dispatch_unparseable (jp : Str → Option JsonEvt) (agg : Str)
    (hne : agg ≠ []) (hb : blocksOf agg ≠ [])
    (hjp : ∀ b ∈ blocksOf agg, jp (processedLines b) = none) :
    dispatchEvents jp agg =
      ((blocksOf agg).map (fun b => Dispatched.assistantChunk (processedLines b))) ++
        [Dispatched.assistantDone] := by
  have hparse : parseSSEAggregated jp agg =
      (blocksOf agg).map (fun b =>
        ({ etype := some "raw".data, response := none, agent := none,
           rawField := some (processedLines b) } : JsonEvt)) := by
    unfold parseSSEAggregated
    rw [if_neg hne]
    apply List.map_congr_left
    intro b hbm
    rw [hjp b hbm]
  unfold dispatchEvents
  rw [hparse]
  rw [List.filter_map]
  have hfil : ((blocksOf agg).filter (isRecognizedType ∘ fun b =>
      ({ etype := some "raw".data, response := none, agent := none,
         rawField := some (processedLines b) } : JsonEvt))) = blocksOf agg := by
    apply List.filter_eq_self.mpr
    intro b _
    rfl
  rw [hfil]
  rw [if_neg (by
    intro hcon
    exact hb (List.map_eq_nil_iff.mp hcon))]
  rw [List.filterMap_map]
  have hcomp : ∀ b : Str,
      ((fun ev : JsonEvt =>
        if ev.etype = some "chunk".data then
          match ev.response with
          | some r => some (Dispatched.assistantChunk r)
          | none => none
        else if ev.etype = some "raw".data then
          match ev.rawField with
          | some r => some (Dispatched.assistantChunk r)
          | none => none
        else if ev.etype = some "status".data then some (Dispatched.assistantStatus ev.agent)
        else none) ∘ fun b =>
          ({ etype := some "raw".data, response := none, agent := none,
             rawField := some (processedLines b) } : JsonEvt)) b =
        some (Dispatched.assistantChunk (processedLines b)) := by
    intro b
    simp [Function.comp]
  rw [List.filterMap_congr (fun b _ => hcomp b)]
  rw [show (fun b => some (Dispatched.assistantChunk (processedLines b))) =
    (some ∘ fun b => Dispatched.assistantChunk (processedLines b)) from rfl]
  rw [List.filterMap_eq_map]

end Learnify

/-! ## Lemmas: the connect_error handler never surfaces an error state -/

namespace Learnify

lemma runConnectErrors_spec (events : List (Bool × Bool)) : ∀ s : SessionSt,
    (runConnectErrors events s).surfacedError = s.surfacedError ∧
    (runConnectErrors events s).connectionsStarted =
      s.connectionsStarted + (events.filter (fun e => e.1 && e.2)).length := by
  induction events with
  | nil => intro s; simp [runConnectErrors]
  | cons e rest ih =>
    intro s
    simp only [runConnectErrors, List.foldl_cons] at ih ⊢
    rcases e with ⟨a, r⟩
    rcases ha : a <;> rcases hr : r <;>
      simp only [connectErrorStep, ha, hr, List.filter_cons] <;>
      simp [ih, Nat.add_assoc, Nat.add_comm]

end Learnify

namespace Learnify

lemma insertOrd_length (s : LessonSection) : ∀ l : List LessonSection,
    (insertOrd s l).length = l.length + 1 := by
  intro l
  induction l with
  | nil => rfl
  | cons x xs ih =>
    unfold insertOrd
    split_ifs <;> simp [ih]

lemma sortSections_length (l : List LessonSection) :
    (sortSections l).length = l.length := by
  induction l with
  | nil => rfl
  | cons x xs ih =>
    unfold sortSections
    rw [insertOrd_length, ih, List.length_cons]

end Learnify

/-! ## Claim theorems -/

namespace Learnify

/-- C1: merging the optimistic message `{id:"temp:1", text:"hi", ts:100}`
with the confirmed `{id:"srv:9", text:"hi", ts:105}` yields exactly the
confirmed message; in general, for messages sharing a normalized-text key, a
confirmed (non-`temp:`) message always replaces a temporary one and a
temporary message never replaces a confirmed one, in either merge order. -/
theorem C1_merge_dedup :
    mergeMessagesById [tempMsgExample] [confirmedMsgExample] = [confirmedMsgExample] ∧
    (∀ t c : Msg, isTempMsg t = true → isTempMsg c = false → keyFor t = keyFor c →
      mergeMessagesById [t] [c] = [c] ∧ mergeMessagesById [c] [t] = [c]) := by
  constructor
  · decide
  · intro t c ht hc hkey
    have hr1 : resolve t c = c := by simp [resolve, ht, hc]
    have hr2 : resolve c t = c := by simp [resolve, ht, hc]
    constructor
    · simp only [mergeMessagesById, List.foldl_cons, List.foldl_nil, setWithPriority,
        if_pos hkey, hr1, valuesOf, List.map_cons, List.map_nil, sortTs, List.insertionSort,
        List.orderedInsert]
    · simp only [mergeMessagesById, List.foldl_cons, List.foldl_nil, setWithPriority,
        if_pos hkey.symm, hr2, valuesOf, List.map_cons, List.map_nil, sortTs,
        List.insertionSort, List.orderedInsert]

/-- Witness for C1 at the spec's own example messages. -/
theorem C1_merge_dedup_witness :
    (isTempMsg tempMsgExample = true ∧ isTempMsg confirmedMsgExample = false ∧
      keyFor tempMsgExample = keyFor confirmedMsgExample) ∧
    (mergeMessagesById [tempMsgExample] [confirmedMsgExample] = [confirmedMsgExample] ∧
      mergeMessagesById [confirmedMsgExample] [tempMsgExample] = [confirmedMsgExample]) :=
  ⟨⟨by decide, by decide, by decide⟩,
    C1_merge_dedup.2 tempMsgExample confirmedMsgExample (by decide) (by decide) (by decide)⟩

/-- C2: `mergeMessagesById` is idempotent in its second argument: for all
message lists `A`, `B`, `merge(merge(A,B), B) = merge(A,B)`, entries and
order included. -/
theorem C2_merge_idempotent (A B : List Msg) :
    mergeMessagesById (mergeMessagesById A B) B = mergeMessagesById A B := by
  unfold mergeMessagesById
  rw [foldl_set_merge_inner A B, foldl_set_replay A B, valuesOf_fromKeyed, sortTs_sortTs]

/-- C3: with 50 nonempty units enqueued and the Stop handler running during
the interruptible await right after the 3rd unit was appended, the drain
loop appends nothing further: the live message's final text is exactly the
concatenation of the first 3 units, the pending queue is empty, and the
cancellation flag is set. -/
theorem C3_streaming_cancel (units : List Str) (sched : Nat → Bool)
    (h50 : units.length = 50) (hne : ∀ u ∈ units, u ≠ [])
    (h1 : sched 1 = false) (h2 : sched 2 = false) (h3 : sched 3 = true) :
    processStreamingQueue sched units none 0 =
      (some (units.take 3).flatten, [], true) := by
  cases units with
  | nil => simp at h50
  | cons a u1 =>
    cases u1 with
    | nil => simp at h50
    | cons b u2 =>
      cases u2 with
      | nil => simp at h50
      | cons c rest =>
        have ha : a ≠ [] := hne a (by simp)
        have hb : b ≠ [] := hne b (by simp)
        have hc : c ≠ [] := hne c (by simp)
        simp [processStreamingQueue, appendTokenToStreamingMessage, ha, hb, hc,
          h1, h2, h3, List.take, List.flatten]

/-- Witness for C3: 50 one-character units, cancellation scheduled after the
third append. -/
theorem C3_streaming_cancel_witness :
    ((List.replicate 50 (['x'] : Str)).length = 50 ∧
      (∀ u ∈ List.replicate 50 (['x'] : Str), u ≠ [])) ∧
    processStreamingQueue (fun n => decide (n = 3)) (List.replicate 50 ['x']) none 0 =
      (some ((List.replicate 50 (['x'] : Str)).take 3).flatten, [], true) :=
  ⟨⟨by decide, by decide⟩,
    C3_streaming_cancel (List.replicate 50 ['x']) (fun n => decide (n = 3))
      (by decide) (by decide) (by decide) (by decide) (by decide)⟩

end Learnify

namespace Learnify

/-- Counterexample to C4 as stated: in a 3-section lesson with slides, with
Stop pressed during section 2's narration (index 1), the transcript still
contains slide-reference messages (none are stripped) and all 3 sections
are narrated — section 3 is both posted and narrated after the stop. -/
theorem C4_counterexample :
    ¬ (((runLesson (fun u => u) (fun _ => 0) (some 1)
          [⟨['s', '1'], 1, "One one.".data, "slide1.png".data⟩,
           ⟨['s', '2'], 2, "Two two.".data, "slide2.png".data⟩,
           ⟨['s', '3'], 3, "Three three.".data, "slide3.png".data⟩]
          ⟨[], false, [], [], false, []⟩).messages.all (fun m => !isSlideRefMsg m)) = true ∧
        (runLesson (fun u => u) (fun _ => 0) (some 1)
          [⟨['s', '1'], 1, "One one.".data, "slide1.png".data⟩,
           ⟨['s', '2'], 2, "Two two.".data, "slide2.png".data⟩,
           ⟨['s', '3'], 3, "Three three.".data, "slide3.png".data⟩]
          ⟨[], false, [], [], false, []⟩).spoken.length ≤ 2) := by
  decide

/-- C4 (amended): `handleStop` during section `j`'s narration sets the
streaming cancellation flag and empties the pending unit queue, but the
lesson loop never consults the flag: the final transcript and narration
sequence are identical to a run without Stop — slide-reference messages are
not removed and later sections are still posted and narrated.  (The chat
input is not disabled by the lesson in this code, so it stays enabled
throughout.) -/
theorem C4_lesson_stop (preview : Str → Str) (clock : Nat → Int) (j : Nat)
    (secs : List LessonSection) (s0 : LessonSt) (hj : j < secs.length) :
    (runLesson preview clock (some j) secs s0).messages =
      (runLesson preview clock none secs s0).messages ∧
    (runLesson preview clock (some j) secs s0).spoken =
      (runLesson preview clock none secs s0).spoken ∧
    (runLesson preview clock (some j) secs s0).cancelled = true ∧
    (runLesson preview clock (some j) secs s0).streamingQueue = [] := by
  unfold runLesson
  obtain ⟨hm, hs⟩ := runLessonAux_stop_invisible preview clock (sortSections secs)
    0 (some j) none s0 s0 rfl rfl
  obtain ⟨hcancel, hqueue⟩ := runLessonAux_stop_flags preview clock j
    (sortSections secs) 0 s0 (Nat.zero_le j) (by rw [sortSections_length]; omega)
  exact ⟨hm, hs, hcancel, hqueue⟩

/-- Witness for the amended C4 at the concrete 3-section lesson with Stop
during section 2. -/
theorem C4_lesson_stop_witness :
    (1 < ([⟨['s', '1'], 1, "One one.".data, "slide1.png".data⟩,
           ⟨['s', '2'], 2, "Two two.".data, "slide2.png".data⟩,
           ⟨['s', '3'], 3, "Three three.".data, "slide3.png".data⟩] :
        List LessonSection).length) ∧
    ((runLesson (fun u => u) (fun _ => 0) (some 1)
        [⟨['s', '1'], 1, "One one.".data, "slide1.png".data⟩,
         ⟨['s', '2'], 2, "Two two.".data, "slide2.png".data⟩,
         ⟨['s', '3'], 3, "Three three.".data, "slide3.png".data⟩]
        ⟨[], false, [], [], false, []⟩).messages =
      (runLesson (fun u => u) (fun _ => 0) none
        [⟨['s', '1'], 1, "One one.".data, "slide1.png".data⟩,
         ⟨['s', '2'], 2, "Two two.".data, "slide2.png".data⟩,
         ⟨['s', '3'], 3, "Three three.".data, "slide3.png".data⟩]
        ⟨[], false, [], [], false, []⟩).messages ∧
     (runLesson (fun u => u) (fun _ => 0) (some 1)
        [⟨['s', '1'], 1, "One one.".data, "slide1.png".data⟩,
         ⟨['s', '2'], 2, "Two two.".data, "slide2.png".data⟩,
         ⟨['s', '3'], 3, "Three three.".data, "slide3.png".data⟩]
        ⟨[], false, [], [], false, []⟩).spoken =
      (runLesson (fun u => u) (fun _ => 0) none
        [⟨['s', '1'], 1, "One one.".data, "slide1.png".data⟩,
         ⟨['s', '2'], 2, "Two two.".data, "slide2.png".data⟩,
         ⟨['s', '3'], 3, "Three three.".data, "slide3.png".data⟩]
        ⟨[], false, [], [], false, []⟩).spoken ∧
     (runLesson (fun u => u) (fun _ => 0) (some 1)
        [⟨['s', '1'], 1, "One one.".data, "slide1.png".data⟩,
         ⟨['s', '2'], 2, "Two two.".data, "slide2.png".data⟩,
         ⟨['s', '3'], 3, "Three three.".data, "slide3.png".data⟩]
        ⟨[], false, [], [], false, []⟩).cancelled = true ∧
     (runLesson (fun u => u) (fun _ => 0) (some 1)
        [⟨['s', '1'], 1, "One one.".data, "slide1.png".data⟩,
         ⟨['s', '2'], 2, "Two two.".data, "slide2.png".data⟩,
         ⟨['s', '3'], 3, "Three three.".data, "slide3.png".data⟩]
        ⟨[], false, [], [], false, []⟩).streamingQueue = []) :=
  ⟨by decide,
    C4_lesson_stop (fun u => u) (fun _ => 0) 1
      [⟨['s', '1'], 1, "One one.".data, "slide1.png".data⟩,
       ⟨['s', '2'], 2, "Two two.".data, "slide2.png".data⟩,
       ⟨['s', '3'], 3, "Three three.".data, "slide3.png".data⟩]
      ⟨[], false, [], [], false, []⟩ (by decide)⟩

/-- Counterexample to C5 as stated: a 5-character single word with a
configured maximum of 3 comes back as one chunk of length 5 > 3 — the word
fallback never splits inside a word. -/
theorem C5_counterexample :
    splitIntoChunks "aaaaa".data 3 = ["aaaaa".data] ∧
    ∃ c ∈ splitIntoChunks "aaaaa".data 3, 3 < c.length := by
  constructor
  · decide
  · decide

/-- C5 (amended): every chunk produced by `splitIntoChunks` either has
length at most the configured maximum, or contains no whitespace at all (a
single unbreakable word longer than the limit, which the sentence-first,
word-fallback splitting passes through whole). -/
theorem C5_chunk_bound (text : Str) (maxLen : Nat) :
    ∀ c ∈ splitIntoChunks text maxLen, c.length ≤ maxLen ∨ NoWsStr c :=
  splitIntoChunks_bound text maxLen

/-- Witness for the amended C5 on a concrete text split at limit 3. -/
theorem C5_chunk_bound_witness :
    ("ab".data ∈ splitIntoChunks "ab cd".data 3) ∧
    ("ab".data.length ≤ 3 ∨ NoWsStr "ab".data) :=
  ⟨by decide, C5_chunk_bound "ab cd".data 3 "ab".data (by decide)⟩

end Learnify

namespace Learnify

/-- C6: for one top-level `speak` call, the cumulative viseme timeline —
each chunk's local offsets shifted by the running chunk-start offset, which
grows by each finished chunk's measured duration — is monotonically
non-decreasing across the whole utterance, chunk boundaries included.
Engine-side hypotheses: each chunk's local timeline arrives sorted with
non-negative offsets, a measured audio duration is non-negative and covers
the chunk's own visemes, and the configured inter-chunk pause is
non-negative. -/
theorem C6_viseme_monotone (pause : ℚ) (chunks : List ChunkPlayback)
    (hpause : 0 ≤ pause)
    (hsorted : ∀ c ∈ chunks, ((chunkLocalVisemes c).map Prod.fst).Chain' (· ≤ ·))
    (hnonneg : ∀ c ∈ chunks, ∀ v ∈ chunkLocalVisemes c, 0 ≤ v.1)
    (hdur : ∀ c ∈ chunks, ∀ d, c.audioDuration = some d →
      0 ≤ d * 1000 ∧ ∀ v ∈ chunkLocalVisemes c, v.1 ≤ d * 1000) :
    ((speakAccum pause chunks).map Prod.fst).Chain' (· ≤ ·) := by
  unfold speakAccum
  exact (speakAccum_fold_inv pause hpause chunks [] 0 hsorted hnonneg hdur
    (by simp) (by simp)).1

/-- Witness for C6: two chunks, the first with a measured duration, the
second falling back to last-viseme-plus-pause. -/
theorem C6_viseme_monotone_witness :
    (0 ≤ (200 : ℚ)) ∧
    ((speakAccum 200 [⟨[(10000, 1)], some 2⟩, ⟨[(0, 3)], none⟩]).map
        Prod.fst).Chain' (· ≤ ·) :=
  ⟨by norm_num,
    C6_viseme_monotone 200 [⟨[(10000, 1)], some 2⟩, ⟨[(0, 3)], none⟩] (by norm_num)
      (by
        intro c hc
        rcases List.mem_cons.mp hc with h | h
        · subst h; simp [chunkLocalVisemes, audioOffsetToMs]
        · simp only [List.mem_singleton] at h
          subst h; simp [chunkLocalVisemes, audioOffsetToMs])
      (by
        intro c hc
        rcases List.mem_cons.mp hc with h | h
        · subst h
          intro v hv
          simp only [chunkLocalVisemes, audioOffsetToMs, List.map_cons, List.map_nil,
            List.mem_singleton] at hv
          subst hv
          norm_num
        · simp only [List.mem_singleton] at h
          subst h
          intro v hv
          simp only [chunkLocalVisemes, audioOffsetToMs, List.map_cons, List.map_nil,
            List.mem_singleton] at hv
          subst hv
          norm_num)
      (by
        intro c hc
        rcases List.mem_cons.mp hc with h | h
        · subst h
          intro d hd
          simp only [Option.some.injEq] at hd
          subst hd
          constructor
          · norm_num
          · intro v hv
            simp only [chunkLocalVisemes, audioOffsetToMs, List.map_cons, List.map_nil,
              List.mem_singleton] at hv
            subst hv
            norm_num
        · simp only [List.mem_singleton] at h
          subst h
          intro d hd
          simp at hd)⟩

/-- Counterexample to C7 as stated: `tokenize(" a")` drops the leading
whitespace — the concatenation of the tokens is `"a"`, not the original
input `" a"`. -/
theorem C7_counterexample :
    tokenize " a".data = ["a".data] ∧
    (tokenize " a".data).flatten ≠ " a".data := by
  constructor
  · decide
  · decide

/-- C7 (amended): `tokenize("")` is empty; every nonempty input yields at
least one token (`"a b"` yields exactly the 2 units `"a "`, `"b"`); the
concatenation of the tokens reconstructs the input exactly whenever the
input does not start with whitespace, and in general reconstructs the input
with its leading whitespace removed - except that a nonempty all-whitespace
input is returned whole as a single token (the `|| [text]` fallback). -/
theorem C7_tokenize_total :
    tokenize [] = [] ∧
    (∀ t : Str, t ≠ [] → 1 ≤ (tokenize t).length) ∧
    (∀ (c : Char) (cs : Str), isWs c = false → (tokenize (c :: cs)).flatten = c :: cs) ∧
    (∀ t : Str, (tokenize t).flatten = t.dropWhile isWs ∨
      ((∀ c ∈ t, isWs c = true) ∧ tokenize t = [t])) ∧
    tokenize "a b".data = ["a ".data, "b".data] := by
  refine ⟨rfl, ?_, ?_, ?_, by decide⟩
  · intro t ht
    unfold tokenize
    rw [if_neg ht]
    cases h : jsMatchTokens t with
    | nil => simp
    | cons x xs => simp
  · intro c cs hws
    have hne : jsMatchTokens (c :: cs) ≠ [] := by
      unfold jsMatchTokens tokAux
      simp only [hws, Bool.false_eq_true, if_false]
      exact tokAux_ne_nil cs [c] false (by simp)
    unfold tokenize
    rw [if_neg (by simp)]
    cases h : jsMatchTokens (c :: cs) with
    | nil => exact absurd h hne
    | cons x xs =>
      have hfl := flatten_tokAux_start (c :: cs)
      rw [show tokAux (c :: cs) [] false = jsMatchTokens (c :: cs) from rfl, h] at hfl
      simp only []
      rw [hfl, List.dropWhile_cons_of_neg (by simp [hws])]
  · intro t
    rcases ht : t with _ | ⟨c, cs⟩
    · left; rfl
    · cases h : jsMatchTokens (c :: cs) with
      | nil =>
        right
        refine ⟨(tokAux_start_eq_nil_iff (c :: cs)).mp h, ?_⟩
        unfold tokenize
        rw [if_neg (by simp), h]
      | cons x xs =>
        left
        unfold tokenize
        rw [if_neg (by simp), h]
        have hfl := flatten_tokAux_start (c :: cs)
        rw [show tokAux (c :: cs) [] false = jsMatchTokens (c :: cs) from rfl, h] at hfl
        exact hfl

/-- Witness for the amended C7 on concrete inputs. -/
theorem C7_tokenize_total_witness :
    (("hi".data ≠ []) ∧ 1 ≤ (tokenize "hi".data).length) ∧
    (isWs 'a' = false ∧ (tokenize "a b".data).flatten = "a b".data) :=
  ⟨⟨by decide, C7_tokenize_total.2.1 "hi".data (by decide)⟩,
    ⟨by decide, C7_tokenize_total.2.2.1 'a' " b".data (by decide)⟩⟩

end Learnify

namespace Learnify

/-- Counterexample to C8 as stated: an aggregated payload that cannot be
parsed into typed events (here `"hello"`, with `JSON.parse` failing on it)
is NOT dispatched as one final assistant message: the failed block becomes a
`raw` pseudo-event, which the filter recognizes and the loop dispatches as a
streamed chunk followed by a done event. -/
theorem C8_counterexample :
    dispatchEvents (fun _ => none) "hello".data =
      [Dispatched.assistantChunk "hello".data, Dispatched.assistantDone] ∧
    dispatchEvents (fun _ => none) "hello".data ≠
      [Dispatched.assistantMessage "hello".data] := by
  constructor
  · decide
  · decide

/-- C8 (amended): the handler never throws (the model is a total function);
when every block of a nonempty payload fails to parse, each block is wrapped
as a `raw` event and dispatched as a streamed chunk, followed by a single
done event; only when the payload produces no recognized events at all
(in particular when it is empty or whitespace-only) is the entire payload
dispatched as one final assistant message. -/
theorem C8_raw_dispatch :
    (∀ (jp : Str → Option JsonEvt) (agg : Str), agg ≠ [] → blocksOf agg ≠ [] →
      (∀ b ∈ blocksOf agg, jp (processedLines b) = none) →
      dispatchEvents jp agg =
        ((blocksOf agg).map (fun b => Dispatched.assistantChunk (processedLines b))) ++
          [Dispatched.assistantDone]) ∧
    (∀ (jp : Str → Option JsonEvt) (agg : Str), blocksOf agg = [] →
      dispatchEvents jp agg = [Dispatched.assistantMessage agg]) := by
  constructor
  · exact dispatch_unparseable
  · intro jp agg hb
    unfold dispatchEvents parseSSEAggregated
    by_cases h : agg = [] <;> simp [h, hb]

/-- Witness for the amended C8 on a concrete two-block unparseable payload. -/
theorem C8_raw_dispatch_witness :
    ("x\n\ny".data ≠ [] ∧ blocksOf "x\n\ny".data ≠ []) ∧
    dispatchEvents (fun _ => none) "x\n\ny".data =
      ((blocksOf "x\n\ny".data).map
        (fun b => Dispatched.assistantChunk (processedLines b))) ++
        [Dispatched.assistantDone] :=
  ⟨⟨by decide, by decide⟩,
    C8_raw_dispatch.1 (fun _ => none) "x\n\ny".data (by decide) (by decide)
      (fun b _ => rfl)⟩

/-- Counterexample to C9 as stated: after 5 consecutive auth-flavoured
`connect_error` events no error state has been surfaced (the handler only
logs), and 6 such events start 6 fresh connections — more than the
configured `reconnectionAttempts: 5` — so the session does not settle into a
surfaced error state after the configured retry count. -/
theorem C9_counterexample :
    (runConnectErrors (List.replicate 5 (true, true)) ⟨1, 0, false⟩).surfacedError = false ∧
    (runConnectErrors (List.replicate 6 (true, true)) ⟨1, 0, false⟩).connectionsStarted = 7 ∧
    chatIoOptions.reconnectionAttempts = 5 := by
  refine ⟨?_, ?_, ?_⟩ <;> decide

/-- C9 (amended): the `connect_error` handler never sets any surfaced error
state, and it starts one fresh connection (with a fresh library retry
budget) for every auth/token-flavoured error whose token refresh succeeds —
so the number of handler-initiated reconnections grows with the number of
such events instead of being capped by `reconnectionAttempts`; only the
transport library's own per-connection retries are bounded by the configured
`reconnectionAttempts: 5` and `reconnectionDelay: 1000`. -/
theorem C9_reconnect_unbounded (events : List (Bool × Bool)) (s : SessionSt) :
    (runConnectErrors events s).surfacedError = s.surfacedError ∧
    (runConnectErrors events s).connectionsStarted =
      s.connectionsStarted + (events.filter (fun e => e.1 && e.2)).length :=
  runConnectErrors_spec events s

/-- C10: in the inbound `message` handler, after removing temporary entries
matching the incoming message by content and sender, if the remaining list
already contains an entry with the incoming message's id, the handler
returns that list unchanged — the incoming message is not appended, so
confirmed messages are deduplicated by id as well. -/
theorem C10_inbound_dedup (prev : List ChatMsg) (m : ChatMsg)
    (h : ∃ p ∈ withoutTemp prev m, p.id = m.id) :
    onMessageHandler prev m = withoutTemp prev m := by
  obtain ⟨p, hp, hpid⟩ := h
  have hc : (withoutTemp prev m).any (fun p => p.id = m.id) = true :=
    List.any_eq_true.mpr ⟨p, hp, by simp [hpid]⟩
  simp [onMessageHandler, hc]

/-- Witness for C10: the incoming echo of message `m1` removes the matching
optimistic temp entry and is not appended because `m1` is already present. -/
theorem C10_inbound_dedup_witness :
    (∃ p ∈ withoutTemp
        [⟨"temp-1".data, "c1".data, "me".data, "hi".data⟩,
         ⟨"m1".data, "c1".data, "me".data, "hi".data⟩]
        ⟨"m1".data, "c1".data, "me".data, "hi".data⟩,
      p.id = (⟨"m1".data, "c1".data, "me".data, "hi".data⟩ : ChatMsg).id) ∧
    onMessageHandler
        [⟨"temp-1".data, "c1".data, "me".data, "hi".data⟩,
         ⟨"m1".data, "c1".data, "me".data, "hi".data⟩]
        ⟨"m1".data, "c1".data, "me".data, "hi".data⟩ =
      withoutTemp
        [⟨"temp-1".data, "c1".data, "me".data, "hi".data⟩,
         ⟨"m1".data, "c1".data, "me".data, "hi".data⟩]
        ⟨"m1".data, "c1".data, "me".data, "hi".data⟩ :=
  ⟨by decide,
    C10_inbound_dedup
      [⟨"temp-1".data, "c1".data, "me".data, "hi".data⟩,
       ⟨"m1".data, "c1".data, "me".data, "hi".data⟩]
      ⟨"m1".data, "c1".data, "me".data, "hi".data⟩ (by decide)⟩

end Learnify
